import Mathlib

/-!
Verification of the interfaceGen test-case generation core.

A shallow embedding of the generation + repair + validation pipeline of the
`interface_gen` package, together with proofs settling the claims of the
specification against the code.

Embedded source files:
* `src/interface_gen/core/generator.py` (`TestCaseGenerator`): the JSON repair
  helpers `_fix_json_string`, `_extract_json_from_text`, `_sanitize_json_string`,
  the validator `_sanitize_test_case`, the rule fix-up block of
  `_generate_test_case`, and the batch loop `generate_test_cases`.
* `src/interface_gen/models/test_case.py` (`TestCase` pydantic model).
* `src/interface_gen/core/rag.py` (`TestCaseRAG`): persistence state machine.

Python `dict`/`list`/`str`/`int` values flowing through the pipeline are
modelled by the `Json` inductive below. Python's `json.loads` is modelled by a
fuel-based parser `Json.parse` (fuel is structural, so all definitions compute
by kernel reduction); `json.dumps` (default separators, as used by the
generator) is modelled by `Json.dumps`. Regex rewrites in `_fix_json_string`
are modelled by direct character scanners mirroring leftmost, non-overlapping
`re.sub` semantics. The LLM (`complete`) and the embedding provider are
abstract collaborators and enter as function parameters, as does the
uuid generator (a stream of fresh identifiers).
-/

/-- Model of a Python/JSON value as passed around by the generator. -/
inductive Json where
  | null
  | bool (b : Bool)
  | num (n : Int)
  | str (s : String)
  | arr (xs : List Json)
  | obj (fields : List (String × Json))
deriving Repr, Inhabited

mutual

/-- Structural equality on `Json` values (Python `==` on the modelled values). -/
def Json.beq : Json → Json → Bool
  | .null, .null => true
  | .bool a, .bool b => a == b
  | .num a, .num b => a == b
  | .str a, .str b => a == b
  | .arr xs, .arr ys => Json.beqItems xs ys
  | .obj xs, .obj ys => Json.beqFields xs ys
  | _, _ => false

def Json.beqItems : List Json → List Json → Bool
  | [], [] => true
  | x :: xs, y :: ys => Json.beq x y && Json.beqItems xs ys
  | _, _ => false

def Json.beqFields : List (String × Json) → List (String × Json) → Bool
  | [], [] => true
  | (k, v) :: xs, (l, w) :: ys => k == l && Json.beq v w && Json.beqFields xs ys
  | _, _ => false

end

mutual

theorem Json.beq_iff : ∀ a b : Json, Json.beq a b = true ↔ a = b
  | .null, b => by cases b <;> simp [Json.beq]
  | .bool a, b => by cases b <;> simp [Json.beq]
  | .num a, b => by cases b <;> simp [Json.beq]
  | .str a, b => by cases b <;> simp [Json.beq]
  | .arr xs, b => by
      cases b <;> simp [Json.beq]
      exact Json.beqItems_iff xs _
  | .obj xs, b => by
      cases b <;> simp [Json.beq]
      exact Json.beqFields_iff xs _

theorem Json.beqItems_iff : ∀ xs ys : List Json, Json.beqItems xs ys = true ↔ xs = ys
  | [], ys => by cases ys <;> simp [Json.beqItems]
  | x :: xs, ys => by
      cases ys with
      | nil => simp [Json.beqItems]
      | cons y ys => simp [Json.beqItems, Json.beq_iff x y, Json.beqItems_iff xs ys]

theorem Json.beqFields_iff :
    ∀ xs ys : List (String × Json), Json.beqFields xs ys = true ↔ xs = ys
  | [], ys => by cases ys <;> simp [Json.beqFields]
  | (k, v) :: xs, ys => by
      cases ys with
      | nil => simp [Json.beqFields]
      | cons y ys =>
          obtain ⟨l, w⟩ := y
          simp [Json.beqFields, Json.beq_iff v w, Json.beqFields_iff xs ys, and_assoc]

end

instance : DecidableEq Json := fun a b =>
  decidable_of_iff (Json.beq a b = true) (Json.beq_iff a b)

/-! ## Dictionary operations (Python `dict` on string keys) -/

/-- Lookup of a key in an association list (Python `d[k]` / `d.get(k)`). -/
def lookupKey : List (String × Json) → String → Option Json
  | [], _ => none
  | (k, v) :: rest, key => if k = key then some v else lookupKey rest key

/-- Python `d[k]` / `d.get(k)` read on a modelled value. -/
def Json.objGet (j : Json) (key : String) : Option Json :=
  match j with
  | .obj fs => lookupKey fs key
  | _ => none

/-- Insert/update on an association list with Python `dict` semantics: an
existing key keeps its position and gets the new value, a new key is appended. -/
def insertKey (fs : List (String × Json)) (key : String) (v : Json) :
    List (String × Json) :=
  match fs with
  | [] => [(key, v)]
  | (k, w) :: rest =>
      if k = key then (k, v) :: rest else (k, w) :: insertKey rest key v

/-- Python `d[k] = v` on an object (used only where the code holds a dict). -/
def Json.objSet (j : Json) (key : String) (v : Json) : Json :=
  match j with
  | .obj fs => .obj (insertKey fs key v)
  | _ => j

/-- Key membership on an object (`k in d` for a Python dict). -/
def Json.hasKey (j : Json) (key : String) : Bool :=
  match j with
  | .obj fs => fs.any (fun p => p.1 = key)
  | _ => false

/-- Pairwise-distinct keys of an association list. -/
def keysNodup : List (String × Json) → Bool
  | [] => true
  | (k, _) :: rest => !(rest.any (fun p => p.1 = k)) && keysNodup rest

mutual

/-- Well-formed values: every object has pairwise distinct keys, recursively.
Every value that exists in Python (where objects are `dict`s) satisfies this. -/
def Json.wf : Json → Bool
  | .null => true
  | .bool _ => true
  | .num _ => true
  | .str _ => true
  | .arr xs => Json.wfItems xs
  | .obj fs => keysNodup fs && Json.wfFields fs

def Json.wfItems : List Json → Bool
  | [] => true
  | x :: xs => Json.wf x && Json.wfItems xs

def Json.wfFields : List (String × Json) → Bool
  | [] => true
  | (_, v) :: rest => Json.wf v && Json.wfFields rest

end

theorem wfItems_iff (xs : List Json) :
    Json.wfItems xs = true ↔ ∀ x ∈ xs, Json.wf x = true := by
  induction xs with
  | nil => simp [Json.wfItems]
  | cons x xs ih => simp [Json.wfItems, ih]

theorem wfFields_iff (fs : List (String × Json)) :
    Json.wfFields fs = true ↔ ∀ p ∈ fs, Json.wf p.2 = true := by
  induction fs with
  | nil => simp [Json.wfFields]
  | cons p fs ih =>
      obtain ⟨k, v⟩ := p
      simp [Json.wfFields, ih]

theorem insertKey_keys_sub (fs : List (String × Json)) (key : String) (v : Json) :
    ∀ k ∈ (insertKey fs key v).map Prod.fst, k ∈ fs.map Prod.fst ∨ k = key := by
  induction fs with
  | nil => simp [insertKey]
  | cons p rest ih =>
      obtain ⟨k0, w0⟩ := p
      by_cases hk : k0 = key
      · simp [insertKey, hk]
        tauto
      · simp only [insertKey, if_neg hk, List.map_cons, List.mem_cons]
        intro k hmem
        rcases hmem with h | h
        · left; simp [h]
        · rcases ih k h with h1 | h1
          · left; simp [h1]
          · right; exact h1

theorem keysNodup_iff (fs : List (String × Json)) :
    keysNodup fs = true ↔ (fs.map Prod.fst).Nodup := by
  induction fs with
  | nil => simp [keysNodup]
  | cons p rest ih =>
      obtain ⟨k, v⟩ := p
      simp only [keysNodup, List.map_cons, List.nodup_cons, Bool.and_eq_true,
        Bool.not_eq_true', List.any_eq_false, ih]
      constructor
      · rintro ⟨h1, h2⟩
        refine ⟨fun hmem => ?_, h2⟩
        obtain ⟨q, hq, hq2⟩ := List.mem_map.mp hmem
        exact absurd (decide_eq_true hq2) (by simpa using h1 q hq)
      · rintro ⟨h1, h2⟩
        refine ⟨fun q hq => ?_, h2⟩
        simp only [Bool.not_eq_true, decide_eq_false_iff_not]
        exact fun he => h1 (List.mem_map.mpr ⟨q, hq, he⟩)

theorem mem_keys_insertKey (fs : List (String × Json)) (key k : String) (v : Json) :
    k ∈ (insertKey fs key v).map Prod.fst ↔ k ∈ fs.map Prod.fst ∨ k = key := by
  induction fs with
  | nil => simp [insertKey]
  | cons p rest ih =>
      obtain ⟨k0, w0⟩ := p
      by_cases hk : k0 = key
      · subst hk
        rw [show insertKey ((k0, w0) :: rest) k0 v = (k0, v) :: rest from by
          simp [insertKey]]
        simp only [List.map_cons, List.mem_cons]
        constructor
        · tauto
        · rintro ((h | h) | h)
          · left; exact h
          · right; exact h
          · left; exact h
      · simp only [insertKey, if_neg hk, List.map_cons, List.mem_cons, ih]
        tauto

theorem insertKey_nodup (fs : List (String × Json)) (key : String) (v : Json)
    (h : keysNodup fs = true) : keysNodup (insertKey fs key v) = true := by
  rw [keysNodup_iff] at h ⊢
  induction fs with
  | nil => simp [insertKey]
  | cons p rest ih =>
      obtain ⟨k0, w0⟩ := p
      simp only [List.map_cons, List.nodup_cons] at h
      by_cases hk : k0 = key
      · simp only [insertKey, if_pos hk, List.map_cons, List.nodup_cons]
        exact h
      · simp only [insertKey, if_neg hk, List.map_cons, List.nodup_cons]
        refine ⟨fun hmem => ?_, ih h.2⟩
        rcases (mem_keys_insertKey rest key k0 v).mp hmem with h1 | h1
        · exact h.1 h1
        · exact hk h1

theorem insertKey_values (fs : List (String × Json)) (key : String) (v : Json) :
    ∀ p ∈ insertKey fs key v, p ∈ fs ∨ p = (key, v) := by
  induction fs with
  | nil => simp [insertKey]
  | cons q rest ih =>
      obtain ⟨k0, w0⟩ := q
      by_cases hk : k0 = key
      · simp only [insertKey, if_pos hk, List.mem_cons]
        intro p hp
        rcases hp with h | h
        · right; rw [h, hk]
        · left; right; exact h
      · simp only [insertKey, if_neg hk, List.mem_cons]
        intro p hp
        rcases hp with h | h
        · left; left; exact h
        · rcases ih p h with h1 | h1
          · left; right; exact h1
          · right; exact h1

theorem objSet_wf {fs : List (String × Json)} {key : String} {v : Json}
    (h : Json.wf (.obj fs) = true) (hv : v.wf = true) :
    Json.wf (Json.objSet (.obj fs) key v) = true := by
  simp only [Json.objSet, Json.wf, Bool.and_eq_true, wfFields_iff] at h ⊢
  obtain ⟨hnd, hvals⟩ := h
  refine ⟨insertKey_nodup fs key v hnd, ?_⟩
  intro p hp
  rcases insertKey_values fs key v p hp with h1 | h1
  · exact hvals p h1
  · subst h1; exact hv

theorem lookupKey_insertKey_same (fs : List (String × Json)) (key : String) (v : Json) :
    lookupKey (insertKey fs key v) key = some v := by
  induction fs with
  | nil => simp [insertKey, lookupKey]
  | cons p rest ih =>
      obtain ⟨k0, w0⟩ := p
      by_cases hk : k0 = key
      · simp [insertKey, hk, lookupKey]
      · simp [insertKey, hk, lookupKey, ih]

theorem objGet_objSet_same (fs : List (String × Json)) (key : String) (v : Json) :
    Json.objGet (Json.objSet (.obj fs) key v) key = some v := by
  simp [Json.objSet, Json.objGet, lookupKey_insertKey_same]

theorem lookupKey_insertKey_other (fs : List (String × Json)) (key other : String)
    (v : Json) (h : other ≠ key) :
    lookupKey (insertKey fs key v) other = lookupKey fs other := by
  have hko : key ≠ other := Ne.symm h
  induction fs with
  | nil => simp [insertKey, lookupKey, hko]
  | cons p rest ih =>
      obtain ⟨k0, w0⟩ := p
      by_cases hk : k0 = key
      · subst hk
        simp [insertKey, lookupKey, hko]
      · simp only [insertKey, if_neg hk, lookupKey]
        by_cases ho : k0 = other
        · simp [ho]
        · simp [ho, ih]

theorem objGet_objSet_other (fs : List (String × Json)) (key other : String) (v : Json)
    (h : other ≠ key) :
    Json.objGet (Json.objSet (.obj fs) key v) other = Json.objGet (.obj fs) other := by
  simp [Json.objSet, Json.objGet, lookupKey_insertKey_other fs key other v h]

theorem hasKey_any (fs : List (String × Json)) (k : String) :
    Json.hasKey (.obj fs) k = true ↔ k ∈ fs.map Prod.fst := by
  simp only [Json.hasKey, List.any_eq_true, List.mem_map]
  constructor
  · rintro ⟨q, hq, hq2⟩
    exact ⟨q, hq, of_decide_eq_true hq2⟩
  · rintro ⟨q, hq, hq2⟩
    exact ⟨q, hq, decide_eq_true hq2⟩

theorem hasKey_objSet_same (fs : List (String × Json)) (key : String) (v : Json) :
    Json.hasKey (Json.objSet (.obj fs) key v) key = true := by
  simp only [Json.objSet]
  rw [hasKey_any]
  exact (mem_keys_insertKey fs key key v).mpr (Or.inr rfl)

theorem hasKey_objSet_other (fs : List (String × Json)) (key other : String) (v : Json)
    (h : other ≠ key) :
    Json.hasKey (Json.objSet (.obj fs) key v) other = Json.hasKey (.obj fs) other := by
  simp only [Json.objSet]
  by_cases hm : other ∈ fs.map Prod.fst
  · rw [(hasKey_any _ _).mpr ((mem_keys_insertKey fs key other v).mpr (Or.inl hm)),
      (hasKey_any _ _).mpr hm]
  · have h1 : ¬ other ∈ (insertKey fs key v).map Prod.fst := by
      rw [mem_keys_insertKey]
      tauto
    rw [Bool.eq_iff_iff, hasKey_any, hasKey_any]
    tauto
/-! ## Characters and serialization (`json.dumps` with default separators) -/

/-- Double quote. -/
def qC : Char := Char.ofNat 34
/-- Single quote. -/
def sqC : Char := Char.ofNat 39
/-- Backslash. -/
def bsC : Char := Char.ofNat 92
/-- Backtick. -/
def btC : Char := Char.ofNat 96
/-- Opening curly brace. -/
def obC : Char := Char.ofNat 123
/-- Closing curly brace. -/
def cbC : Char := Char.ofNat 125
/-- Opening square bracket. -/
def obkC : Char := Char.ofNat 91
/-- Closing square bracket. -/
def cbkC : Char := Char.ofNat 93
/-- Space. -/
def spC : Char := Char.ofNat 32
/-- Newline. -/
def nlC : Char := Char.ofNat 10
/-- Tab. -/
def tbC : Char := Char.ofNat 9
/-- Carriage return. -/
def crC : Char := Char.ofNat 13

/-- Whitespace in the sense of both JSON and the regex class `\s`
(restricted to the four common characters). -/
def isWsC (c : Char) : Bool := c = spC || c = nlC || c = tbC || c = crC

/-- Decimal digit character. -/
def isDigitC (c : Char) : Bool := 48 ≤ c.toNat && c.toNat ≤ 57

/-- The digit character for `d < 10`. -/
def digitChar (d : Nat) : Char := Char.ofNat (48 + d)

/-- Decimal digit characters of `n`, most significant first (fuel-based so that
it computes by kernel reduction; `natChars` supplies adequate fuel). -/
def natDigitsF : Nat → Nat → List Char
  | 0, _ => []
  | f + 1, n =>
      if n < 10 then [digitChar n] else natDigitsF f (n / 10) ++ [digitChar (n % 10)]

/-- Decimal representation of a natural number. -/
def natChars (n : Nat) : List Char := natDigitsF (n + 1) n

/-- Decimal representation of an integer (optional minus sign). -/
def intChars (i : Int) : List Char :=
  if i < 0 then '-' :: natChars i.natAbs else natChars i.natAbs

/-- Numeric value of a digit string (as read by the parser below). -/
def digitsToNat (ds : List Char) : Nat :=
  ds.foldl (fun a c => a * 10 + (c.toNat - 48)) 0

/-- JSON string escaping as performed by `json.dumps` for the characters that
occur in this development (quote and backslash; control characters are kept
verbatim by the model, and the parser below accepts them verbatim). -/
def escapeChar (c : Char) : List Char := if c = qC || c = bsC then [bsC, c] else [c]

/-- Escape a character list. -/
def escapeChars (cs : List Char) : List Char := cs.flatMap escapeChar

mutual

/-- Model of `json.dumps` with the default separators `", "` and `": "`, as a character
list. This is the serialization the generator applies to rules, parameters and
test cases (`json.dumps(...)` at `generator.py` lines 88, 95, 176, 252, 268, 296). -/
def Json.dumpsL : Json → List Char
  | .null => "null".data
  | .bool true => "true".data
  | .bool false => "false".data
  | .num n => intChars n
  | .str s => qC :: (escapeChars s.data ++ [qC])
  | .arr xs => obkC :: (Json.dumpsItems xs ++ [cbkC])
  | .obj fs => obC :: (Json.dumpsFields fs ++ [cbC])

/-- Array elements, `", "`-separated. -/
def Json.dumpsItems : List Json → List Char
  | [] => []
  | [x] => Json.dumpsL x
  | x :: y :: rest => Json.dumpsL x ++ ',' :: spC :: Json.dumpsItems (y :: rest)

/-- Object members, `", "`-separated, keys quoted, `": "` after each key. -/
def Json.dumpsFields : List (String × Json) → List Char
  | [] => []
  | [(k, v)] => qC :: (escapeChars k.data ++ (qC :: ':' :: spC :: Json.dumpsL v))
  | (k, v) :: q :: rest =>
      qC :: (escapeChars k.data ++ (qC :: ':' :: spC :: (Json.dumpsL v
        ++ ',' :: spC :: Json.dumpsFields (q :: rest))))

end

/-- Model of `json.dumps` as a string. -/
def Json.dumps (j : Json) : String := String.mk (Json.dumpsL j)

/-! ## The parser (model of `json.loads`)

A fuel-based recursive-descent parser. Fuel is the first, structural argument,
so every concrete run reduces in the kernel. The parser accepts the JSON
fragment relevant to the pipeline (no floats, no `\u` escapes; raw control
characters inside strings are accepted). Duplicate object keys follow Python
semantics: the last value wins, the first position is kept (`insertKey`). -/

/-- Drop leading whitespace. -/
def skipWs (cs : List Char) : List Char := cs.dropWhile isWsC

/-- Parse a string body after the opening quote: content and remainder after
the closing quote.  Only quote and backslash escapes are recognized. -/
def parseStrBody : List Char → Option (List Char × List Char)
  | [] => none
  | c :: rest =>
      if c = qC then some ([], rest)
      else if c = bsC then
        match rest with
        | [] => none
        | e :: rest2 =>
            if e = qC || e = bsC then
              (parseStrBody rest2).map (fun p => (e :: p.1, p.2))
            else none
      else (parseStrBody rest).map (fun p => (c :: p.1, p.2))

/-- Take the maximal digit run and the remainder. -/
def spanDigits (cs : List Char) : List Char × List Char :=
  (cs.takeWhile isDigitC, cs.dropWhile isDigitC)

/-- Fold `insertKey` over parsed members (Python dict construction order). -/
def insertAll (acc : List (String × Json)) : List (String × Json) → List (String × Json)
  | [] => acc
  | (k, v) :: rest => insertAll (insertKey acc k v) rest

/-! ## Round-trip: helper lemmas -/

theorem skipWs_cons_not (c : Char) (l : List Char) (h : isWsC c = false) :
    skipWs (c :: l) = c :: l := by
  simp [skipWs, List.dropWhile_cons, h]

theorem skipWs_cons_ws (c : Char) (l : List Char) (h : isWsC c = true) :
    skipWs (c :: l) = skipWs l := by
  simp [skipWs, List.dropWhile_cons, h]

theorem skipWs_sp (l : List Char) : skipWs (spC :: l) = skipWs l :=
  skipWs_cons_ws spC l (by decide)

/-- Characters differ when their codes differ. -/
theorem char_ne_of_code (c d : Char) (m : Nat) (hd : d.toNat = m)
    (hm : c.toNat ≠ m) : c ≠ d := fun e => hm (by rw [e, hd])

/-- Digit characters are not whitespace, brackets, or parser punctuation. -/
theorem digit_not_special (c : Char) (h : isDigitC c = true) :
    isWsC c = false ∧ c ≠ cbkC ∧ c ≠ cbC ∧ c ≠ obC ∧ c ≠ obkC ∧ c ≠ qC ∧ c ≠ '-' ∧
      c ≠ ',' ∧ c ≠ 't' ∧ c ≠ 'f' ∧ c ≠ 'n' := by
  simp only [isDigitC, Bool.and_eq_true, decide_eq_true_eq] at h
  obtain ⟨h1, h2⟩ := h
  refine ⟨?_, ?_, ?_, ?_, ?_, ?_, ?_, ?_, ?_, ?_, ?_⟩
  · simp only [isWsC, Bool.or_eq_false_iff, decide_eq_false_iff_not]
    refine ⟨⟨⟨char_ne_of_code c spC 32 (by decide) (by omega),
      char_ne_of_code c nlC 10 (by decide) (by omega)⟩,
      char_ne_of_code c tbC 9 (by decide) (by omega)⟩,
      char_ne_of_code c crC 13 (by decide) (by omega)⟩
  · exact char_ne_of_code c cbkC 93 (by decide) (by omega)
  · exact char_ne_of_code c cbC 125 (by decide) (by omega)
  · exact char_ne_of_code c obC 123 (by decide) (by omega)
  · exact char_ne_of_code c obkC 91 (by decide) (by omega)
  · exact char_ne_of_code c qC 34 (by decide) (by omega)
  · exact char_ne_of_code c '-' 45 (by decide) (by omega)
  · exact char_ne_of_code c ',' 44 (by decide) (by omega)
  · exact char_ne_of_code c 't' 116 (by decide) (by omega)
  · exact char_ne_of_code c 'f' 102 (by decide) (by omega)
  · exact char_ne_of_code c 'n' 110 (by decide) (by omega)

theorem natDigitsF_irrel (n : Nat) : ∀ f g : Nat, n < f → n < g →
    natDigitsF f n = natDigitsF g n := by
  induction n using Nat.strongRecOn with
  | _ n ih =>
      intro f g hf hg
      match f, g with
      | f + 1, g + 1 =>
          simp only [natDigitsF]
          by_cases h : n < 10
          · simp [h]
          · simp only [if_neg h]
            rw [ih (n / 10) (by omega) f g (by omega) (by omega)]

theorem natChars_unfold (n : Nat) :
    natChars n = if n < 10 then [digitChar n]
                 else natChars (n / 10) ++ [digitChar (n % 10)] := by
  by_cases h : n < 10
  · simp [natChars, natDigitsF, h]
  · rw [if_neg h]
    have h1 : natChars n = natDigitsF n (n / 10) ++ [digitChar (n % 10)] := by
      show (if n < 10 then [digitChar n]
            else natDigitsF n (n / 10) ++ [digitChar (n % 10)]) = _
      rw [if_neg h]
    rw [h1, natDigitsF_irrel (n / 10) n (n / 10 + 1) (by omega) (by omega)]
    rfl

theorem digitChar_spec (d : Nat) (h : d < 10) :
    (digitChar d).toNat = 48 + d ∧ isDigitC (digitChar d) = true := by
  match d, h with
  | 0, _ => exact ⟨by decide, by decide⟩
  | 1, _ => exact ⟨by decide, by decide⟩
  | 2, _ => exact ⟨by decide, by decide⟩
  | 3, _ => exact ⟨by decide, by decide⟩
  | 4, _ => exact ⟨by decide, by decide⟩
  | 5, _ => exact ⟨by decide, by decide⟩
  | 6, _ => exact ⟨by decide, by decide⟩
  | 7, _ => exact ⟨by decide, by decide⟩
  | 8, _ => exact ⟨by decide, by decide⟩
  | 9, _ => exact ⟨by decide, by decide⟩

theorem natChars_ne_nil (n : Nat) : natChars n ≠ [] := by
  rw [natChars_unfold]
  by_cases h : n < 10 <;> simp [h]

theorem natChars_digits (n : Nat) : ∀ c ∈ natChars n, isDigitC c = true := by
  induction n using Nat.strongRecOn with
  | _ n ih =>
      rw [natChars_unfold]
      by_cases h : n < 10
      · simp only [if_pos h, List.mem_singleton]
        rintro c rfl
        exact (digitChar_spec n h).2
      · simp only [if_neg h, List.mem_append, List.mem_singleton]
        rintro c (hc | rfl)
        · exact ih (n / 10) (by omega) c hc
        · exact (digitChar_spec (n % 10) (Nat.mod_lt _ (by omega))).2

theorem digitsToNat_append (ds : List Char) (c : Char) :
    digitsToNat (ds ++ [c]) = digitsToNat ds * 10 + (c.toNat - 48) := by
  simp [digitsToNat, List.foldl_append]

theorem digitsToNat_natChars (n : Nat) : digitsToNat (natChars n) = n := by
  induction n using Nat.strongRecOn with
  | _ n ih =>
      rw [natChars_unfold]
      by_cases h : n < 10
      · simp only [if_pos h]
        simp [digitsToNat, (digitChar_spec n h).1]
      · simp only [if_neg h, digitsToNat_append]
        rw [ih (n / 10) (by omega), (digitChar_spec (n % 10) (Nat.mod_lt _ (by omega))).1]
        omega

/-- A remainder that cannot extend a digit run. -/
def noDigitHead : List Char → Bool
  | [] => true
  | c :: _ => !isDigitC c

theorem spanDigits_append (ds rest : List Char) (hds : ∀ c ∈ ds, isDigitC c = true)
    (hrest : noDigitHead rest = true) : spanDigits (ds ++ rest) = (ds, rest) := by
  induction ds with
  | nil =>
      simp only [List.nil_append, spanDigits]
      cases rest with
      | nil => simp
      | cons c t =>
          simp only [noDigitHead, Bool.not_eq_true'] at hrest
          simp [List.takeWhile_cons, List.dropWhile_cons, hrest]
  | cons c t ih =>
      have hc : isDigitC c = true := hds c (by simp)
      have ht := ih (fun x hx => hds x (by simp [hx]))
      simp only [spanDigits] at ht
      have h1 : (t ++ rest).takeWhile isDigitC = t := congrArg Prod.fst ht
      have h2 : (t ++ rest).dropWhile isDigitC = rest := congrArg Prod.snd ht
      simp [spanDigits, List.takeWhile_cons, List.dropWhile_cons, hc, h1, h2]

theorem natChars_cons (n : Nat) : ∃ c t, natChars n = c :: t ∧ isDigitC c = true := by
  match h : natChars n with
  | [] => exact absurd h (natChars_ne_nil n)
  | c :: t =>
      refine ⟨c, t, rfl, natChars_digits n c ?_⟩
      rw [h]; exact List.mem_cons_self ..

theorem parseStrBody_q (rest : List Char) : parseStrBody (qC :: rest) = some ([], rest) := by
  rw [parseStrBody.eq_def]
  simp

theorem parseStrBody_escape (s : List Char) : ∀ rest : List Char,
    parseStrBody (escapeChars s ++ qC :: rest) = some (s, rest) := by
  induction s with
  | nil =>
      intro rest
      simp only [escapeChars, List.flatMap_nil, List.nil_append]
      exact parseStrBody_q rest
  | cons c cs ih =>
      intro rest
      by_cases h : c = qC ∨ c = bsC
      · have he : escapeChar c = [bsC, c] := by
          simp only [escapeChar, Bool.or_eq_true, decide_eq_true_eq]
          rw [if_pos h]
        have harg : escapeChars (c :: cs) ++ qC :: rest
            = bsC :: c :: (escapeChars cs ++ qC :: rest) := by
          simp [escapeChars, he]
        rw [harg]
        have hq : ¬(bsC = qC) := by decide
        have hcq : (c = qC || c = bsC) = true := by
          rcases h with h | h <;> simp [h]
        rw [parseStrBody.eq_def]
        simp [hq, hcq, ih rest]
      · push_neg at h
        have he : escapeChar c = [c] := by
          simp only [escapeChar, Bool.or_eq_true, decide_eq_true_eq]
          rw [if_neg (by tauto)]
        have harg : escapeChars (c :: cs) ++ qC :: rest
            = c :: (escapeChars cs ++ qC :: rest) := by
          simp [escapeChars, he]
        rw [harg]
        rw [parseStrBody.eq_def]
        simp [h.1, h.2, ih rest]
/-- Every serialized value starts with a non-whitespace character that closes
nothing. -/
theorem dumpsL_head (v : Json) :
    ∃ c t, Json.dumpsL v = c :: t ∧ isWsC c = false ∧ c ≠ cbkC ∧ c ≠ cbC := by
  cases v with
  | num n =>
      by_cases hn : n < 0
      · refine ⟨'-', natChars n.natAbs, ?_, by decide, by decide, by decide⟩
        simp [Json.dumpsL, intChars, hn]
      · obtain ⟨c0, t0, he, hd⟩ := natChars_cons n.natAbs
        obtain ⟨hws, hbk, hbc, _⟩ := digit_not_special c0 hd
        refine ⟨c0, t0, ?_, hws, hbk, hbc⟩
        simp [Json.dumpsL, intChars, hn, he]
  | bool b => cases b <;> exact ⟨_, _, rfl, by decide, by decide, by decide⟩
  | null => exact ⟨'n', _, rfl, by decide, by decide, by decide⟩
  | str s => exact ⟨qC, _, rfl, by decide, by decide, by decide⟩
  | arr xs => exact ⟨obkC, _, rfl, by decide, by decide, by decide⟩
  | obj fs => exact ⟨obC, _, rfl, by decide, by decide, by decide⟩

theorem skipWs_dumpsL (v : Json) (X : List Char) :
    skipWs (Json.dumpsL v ++ X) = Json.dumpsL v ++ X := by
  obtain ⟨c, t, he, hws, _, _⟩ := dumpsL_head v
  rw [he, List.cons_append]
  exact skipWs_cons_not c (t ++ X) hws

/-- A nonempty serialized item list starts like its first value. -/
theorem dumpsItems_head (x : Json) (xs : List Json) :
    ∃ c t, Json.dumpsItems (x :: xs) = c :: t ∧ isWsC c = false ∧ c ≠ cbkC ∧ c ≠ cbC := by
  obtain ⟨c, t, he, hws, hbk, hbc⟩ := dumpsL_head x
  cases xs with
  | nil => exact ⟨c, t, by simp [Json.dumpsItems, he], hws, hbk, hbc⟩
  | cons y ys =>
      refine ⟨c, t ++ ',' :: spC :: Json.dumpsItems (y :: ys), ?_, hws, hbk, hbc⟩
      simp [Json.dumpsItems, he]

/-- A nonempty serialized member list starts with a quote. -/
theorem dumpsFields_head (k : String) (v : Json) (fs : List (String × Json)) :
    ∃ t, Json.dumpsFields ((k, v) :: fs) = qC :: t := by
  cases fs with
  | nil => exact ⟨_, rfl⟩
  | cons q fs' =>
      obtain ⟨k2, v2⟩ := q
      exact ⟨_, rfl⟩

theorem insertKey_append_not_mem (fs : List (String × Json)) (k : String) (v : Json)
    (h : ¬ k ∈ fs.map Prod.fst) : insertKey fs k v = fs ++ [(k, v)] := by
  induction fs with
  | nil => simp [insertKey]
  | cons q rest ih =>
      obtain ⟨k0, w0⟩ := q
      simp only [List.map_cons, List.mem_cons] at h
      push_neg at h
      have hne : ¬ k0 = k := fun e => h.1 e.symm
      simp only [insertKey, if_neg hne, List.cons_append]
      rw [ih h.2]

theorem insertAll_append (fs : List (String × Json)) : ∀ acc : List (String × Json),
    keysNodup fs = true →
    (∀ k ∈ fs.map Prod.fst, ¬ k ∈ acc.map Prod.fst) →
    insertAll acc fs = acc ++ fs := by
  induction fs with
  | nil => intro acc _ _; simp [insertAll]
  | cons q rest ih =>
      obtain ⟨k0, w0⟩ := q
      intro acc hnd hdisj
      simp only [keysNodup, Bool.and_eq_true, Bool.not_eq_true', List.any_eq_false] at hnd
      have hnd1 : ∀ x ∈ rest, x.1 ≠ k0 := fun x hx => by simpa using hnd.1 x hx
      have hk0 : ¬ k0 ∈ acc.map Prod.fst := hdisj k0 (by simp)
      simp only [insertAll]
      rw [insertKey_append_not_mem acc k0 w0 hk0]
      rw [ih (acc ++ [(k0, w0)]) hnd.2 ?_]
      · simp
      · intro k hk
        simp only [List.map_append, List.mem_append, List.map_cons, List.map_nil,
          List.mem_singleton]
        push_neg
        constructor
        · exact hdisj k (by
            simp only [List.map_cons, List.mem_cons]
            exact Or.inr hk)
        · intro he
          obtain ⟨q, hq, hq2⟩ := List.mem_map.mp hk
          exact hnd1 q hq (by rw [hq2, he])

theorem insertAll_nil (fs : List (String × Json)) (hnd : keysNodup fs = true) :
    insertAll [] fs = fs := by
  rw [insertAll_append fs [] hnd (by simp)]
  simp
/-- Literal prefix test on character lists. -/
def listPre : List Char → List Char → Bool
  | [], _ => true
  | _ :: _, [] => false
  | p :: ps, c :: cs => p = c && listPre ps cs

mutual

/-- Parse one value: skip whitespace, then dispatch on the head character. -/
def parseV : Nat → List Char → Option (Json × List Char)
  | 0, _ => none
  | f + 1, cs => parseVh f (skipWs cs)

/-- Dispatch on the first significant character of a value. -/
def parseVh : Nat → List Char → Option (Json × List Char)
  | 0, _ => none
  | _ + 1, [] => none
  | f + 1, c :: r =>
      if c = obC then parseOh f (skipWs r)
      else if c = obkC then parseAh f (skipWs r)
      else if c = qC then
        (parseStrBody r).map (fun p => (Json.str (String.mk p.1), p.2))
      else if c = '-' then
        if (spanDigits r).1 = [] then none
        else some (.num (-(digitsToNat (spanDigits r).1 : Int)), (spanDigits r).2)
      else if isDigitC c then
        some (.num (digitsToNat (spanDigits (c :: r)).1 : Int), (spanDigits (c :: r)).2)
      else if listPre ['t', 'r', 'u', 'e'] (c :: r) then some (.bool true, r.drop 3)
      else if listPre ['f', 'a', 'l', 's', 'e'] (c :: r) then some (.bool false, r.drop 4)
      else if listPre ['n', 'u', 'l', 'l'] (c :: r) then some (.null, r.drop 3)
      else none

/-- After `[` and whitespace: empty array or element list. -/
def parseAh : Nat → List Char → Option (Json × List Char)
  | 0, _ => none
  | _ + 1, [] => none
  | f + 1, d :: r2 =>
      if d = cbkC then some (.arr [], r2) else parseEls f [] (d :: r2)

/-- After `{` and whitespace: empty object or member list. -/
def parseOh : Nat → List Char → Option (Json × List Char)
  | 0, _ => none
  | _ + 1, [] => none
  | f + 1, d :: r2 =>
      if d = cbC then some (.obj [], r2) else parseFlsK f [] (d :: r2)

/-- One-or-more array elements (accumulating). -/
def parseEls : Nat → List Json → List Char → Option (Json × List Char)
  | 0, _, _ => none
  | f + 1, acc, cs =>
      (parseV f cs).bind (fun p => parseElsAfter f acc p.1 (skipWs p.2))

/-- After an element: `,` continues, `]` closes. -/
def parseElsAfter : Nat → List Json → Json → List Char → Option (Json × List Char)
  | 0, _, _, _ => none
  | _ + 1, _, _, [] => none
  | f + 1, acc, v, d :: r2 =>
      if d = ',' then parseEls f (acc ++ [v]) r2
      else if d = cbkC then some (.arr (acc ++ [v]), r2)
      else none

/-- One-or-more object members: expects a quoted key here. -/
def parseFlsK : Nat → List (String × Json) → List Char → Option (Json × List Char)
  | 0, _, _ => none
  | _ + 1, _, [] => none
  | f + 1, acc, d :: r =>
      if d = qC then
        (parseStrBody r).bind (fun p => parseFlsC f acc (String.mk p.1) (skipWs p.2))
      else none

/-- After a key: expects `:` then the value. -/
def parseFlsC : Nat → List (String × Json) → String → List Char → Option (Json × List Char)
  | 0, _, _, _ => none
  | _ + 1, _, _, [] => none
  | f + 1, acc, k, e :: r2 =>
      if e = ':' then
        (parseV f r2).bind (fun p => parseFlsV f acc k p.1 (skipWs p.2))
      else none

/-- After a member's value: `,` continues, `}` closes.  Members are inserted
with `insertKey`, so duplicate keys behave like Python dicts (last wins). -/
def parseFlsV : Nat → List (String × Json) → String → Json → List Char →
    Option (Json × List Char)
  | 0, _, _, _, _ => none
  | _ + 1, _, _, _, [] => none
  | f + 1, acc, k, v, g :: r4 =>
      if g = ',' then parseFlsK f (insertKey acc k v) (skipWs r4)
      else if g = cbC then some (.obj (insertKey acc k v), r4)
      else none

end

/-- Model of `json.loads`: parse a complete document, requiring that only
whitespace remains. `none` models `json.JSONDecodeError`. -/
def Json.parse (s : String) : Option Json :=
  match parseV (2 * s.length + 2) s.data with
  | some (v, r) => if skipWs r = [] then some v else none
  | none => none

theorem dumpsL_len_pos (v : Json) : 1 ≤ (Json.dumpsL v).length := by
  obtain ⟨c, t, he, _⟩ := dumpsL_head v
  rw [he]
  simp

theorem rtVh_null (f : Nat) (rest : List Char) :
    parseVh (f + 1) (Json.dumpsL .null ++ rest) = some (.null, rest) := by
  show parseVh (f + 1) ('n' :: 'u' :: 'l' :: 'l' :: rest) = some (.null, rest)
  simp only [parseVh]
  rw [if_neg (by decide : ¬ ('n' : Char) = obC), if_neg (by decide : ¬ ('n' : Char) = obkC),
    if_neg (by decide : ¬ ('n' : Char) = qC), if_neg (by decide : ¬ ('n' : Char) = '-'),
    if_neg (by decide : ¬ isDigitC 'n' = true)]
  rw [if_neg (by simp [listPre]), if_neg (by simp [listPre]), if_pos (by simp [listPre])]
  simp

theorem rtVh_bool (b : Bool) (f : Nat) (rest : List Char) :
    parseVh (f + 1) (Json.dumpsL (.bool b) ++ rest) = some (.bool b, rest) := by
  cases b
  · show parseVh (f + 1) ('f' :: 'a' :: 'l' :: 's' :: 'e' :: rest) = some (.bool false, rest)
    simp only [parseVh]
    rw [if_neg (by decide : ¬ ('f' : Char) = obC), if_neg (by decide : ¬ ('f' : Char) = obkC),
      if_neg (by decide : ¬ ('f' : Char) = qC), if_neg (by decide : ¬ ('f' : Char) = '-'),
      if_neg (by decide : ¬ isDigitC 'f' = true)]
    rw [if_neg (by simp [listPre]), if_pos (by simp [listPre])]
    simp
  · show parseVh (f + 1) ('t' :: 'r' :: 'u' :: 'e' :: rest) = some (.bool true, rest)
    simp only [parseVh]
    rw [if_neg (by decide : ¬ ('t' : Char) = obC), if_neg (by decide : ¬ ('t' : Char) = obkC),
      if_neg (by decide : ¬ ('t' : Char) = qC), if_neg (by decide : ¬ ('t' : Char) = '-'),
      if_neg (by decide : ¬ isDigitC 't' = true)]
    rw [if_pos (by simp [listPre])]
    simp

theorem string_eta (s : String) : String.mk s.data = s := rfl

theorem rtVh_str (s : String) (f : Nat) (rest : List Char) :
    parseVh (f + 1) (Json.dumpsL (.str s) ++ rest) = some (.str s, rest) := by
  have h : Json.dumpsL (.str s) ++ rest = qC :: (escapeChars s.data ++ (qC :: rest)) := by
    simp [Json.dumpsL]
  rw [h]
  simp only [parseVh]
  simp [(by decide : ¬ qC = obC), (by decide : ¬ qC = obkC),
    parseStrBody_escape s.data rest, string_eta]

theorem rtVh_num (n : Int) (f : Nat) (rest : List Char)
    (hrest : noDigitHead rest = true) :
    parseVh (f + 1) (Json.dumpsL (.num n) ++ rest) = some (.num n, rest) := by
  by_cases hn : n < 0
  · have h : Json.dumpsL (.num n) ++ rest = '-' :: (natChars n.natAbs ++ rest) := by
      simp [Json.dumpsL, intChars, hn]
    rw [h]
    simp only [parseVh]
    have hv : (-(n.natAbs : Int)) = n := by omega
    simp [(by decide : ¬ ('-' : Char) = obC), (by decide : ¬ ('-' : Char) = obkC),
      (by decide : ¬ ('-' : Char) = qC),
      spanDigits_append _ _ (natChars_digits n.natAbs) hrest,
      natChars_ne_nil n.natAbs, digitsToNat_natChars, hv]
    rw [abs_of_neg hn, neg_neg]
  · have h : Json.dumpsL (.num n) ++ rest = natChars n.natAbs ++ rest := by
      simp [Json.dumpsL, intChars, hn]
    rw [h]
    obtain ⟨c0, t0, he, hd⟩ := natChars_cons n.natAbs
    obtain ⟨_, _, _, h4, h5, h6, h7, _⟩ := digit_not_special c0 hd
    rw [he, List.cons_append]
    simp only [parseVh]
    have hback : c0 :: (t0 ++ rest) = natChars n.natAbs ++ rest := by rw [he]; simp
    have hv : ((n.natAbs : Int)) = n := by omega
    simp only [if_neg h4, if_neg h5, if_neg h6, if_neg h7, hd, if_pos, if_true, hback]
    rw [spanDigits_append _ _ (natChars_digits _) hrest]
    simp [digitsToNat_natChars, hv]

theorem noDigitHead_cons (c : Char) (l : List Char) (h : isDigitC c = false) :
    noDigitHead (c :: l) = true := by
  simp [noDigitHead, h]

mutual

theorem rt_val : ∀ (v : Json) (f : Nat) (cs rest : List Char),
    skipWs cs = Json.dumpsL v ++ rest → 2 * (Json.dumpsL v).length < f →
    v.wf = true → noDigitHead rest = true →
    parseV f cs = some (v, rest)
  | _, 0, _, _, _, hf, _, _ => absurd hf (by omega)
  | v, f + 1, cs, rest, hcs, hf, hwf, hrest => by
      have hlp := dumpsL_len_pos v
      simp only [parseV]
      rw [hcs]
      match v, f, (by omega : 1 ≤ f) with
      | .null, f + 1, _ => exact rtVh_null f rest
      | .bool b, f + 1, _ => exact rtVh_bool b f rest
      | .str s, f + 1, _ => exact rtVh_str s f rest
      | .num n, f + 1, _ => exact rtVh_num n f rest hrest
      | .arr [], f + 1, _ =>
          have h : Json.dumpsL (.arr []) ++ rest = obkC :: (cbkC :: rest) := rfl
          rw [h]
          simp only [parseVh]
          rw [if_neg (by decide : ¬ obkC = obC)]
          simp only [if_true]
          rw [skipWs_cons_not cbkC rest (by decide)]
          match f, (by simp [Json.dumpsL] at hf; omega : 1 ≤ f) with
          | f + 1, _ =>
              simp only [parseAh]
              simp only [if_true]
      | .arr (x :: xs), f + 1, _ =>
          have hlen : (Json.dumpsL (.arr (x :: xs))).length
              = (Json.dumpsItems (x :: xs)).length + 2 := by
            simp [Json.dumpsL]
          have hf2 : 2 * ((Json.dumpsItems (x :: xs)).length + 2) < f + 2 := by
            rw [← hlen]; omega
          obtain ⟨c0, t0, hit, hws0, hbk0, hbc0⟩ := dumpsItems_head x xs
          have h : Json.dumpsL (.arr (x :: xs)) ++ rest
              = obkC :: (Json.dumpsItems (x :: xs) ++ cbkC :: rest) := by
            simp [Json.dumpsL]
          rw [h]
          simp only [parseVh]
          rw [if_neg (by decide : ¬ obkC = obC)]
          simp only [if_true]
          rw [hit, List.cons_append, skipWs_cons_not c0 _ hws0]
          match f, (by omega : 2 ≤ f) with
          | f + 1, _ =>
              simp only [parseAh]
              rw [if_neg hbk0, ← List.cons_append, ← hit]
              have hwf1 : Json.wfItems (x :: xs) = true := by simpa [Json.wf] using hwf
              exact rt_els x xs f [] (Json.dumpsItems (x :: xs) ++ cbkC :: rest) rest
                (by rw [hit, List.cons_append]; exact skipWs_cons_not c0 _ hws0)
                (by omega) hwf1
      | .obj [], f + 1, _ =>
          have h : Json.dumpsL (.obj []) ++ rest = obC :: (cbC :: rest) := rfl
          rw [h]
          simp only [parseVh]
          simp only [if_true]
          rw [skipWs_cons_not cbC rest (by decide)]
          match f, (by simp [Json.dumpsL] at hf; omega : 1 ≤ f) with
          | f + 1, _ =>
              simp only [parseOh]
              simp only [if_true]
      | .obj ((k, v) :: fs), f + 1, _ =>
          have hlen : (Json.dumpsL (.obj ((k, v) :: fs))).length
              = (Json.dumpsFields ((k, v) :: fs)).length + 2 := by
            simp [Json.dumpsL]
          have hf2 : 2 * ((Json.dumpsFields ((k, v) :: fs)).length + 2) < f + 2 := by
            rw [← hlen]; omega
          obtain ⟨t0, hft⟩ := dumpsFields_head k v fs
          have h : Json.dumpsL (.obj ((k, v) :: fs)) ++ rest
              = obC :: (Json.dumpsFields ((k, v) :: fs) ++ cbC :: rest) := by
            simp [Json.dumpsL]
          rw [h]
          simp only [parseVh]
          simp only [if_true]
          rw [hft, List.cons_append, skipWs_cons_not qC _ (by decide)]
          match f, (by omega : 2 ≤ f) with
          | f + 1, _ =>
              simp only [parseOh]
              rw [if_neg (by decide : ¬ qC = cbC), ← List.cons_append, ← hft]
              have hwf0 : keysNodup ((k, v) :: fs) = true
                  ∧ Json.wfFields ((k, v) :: fs) = true := by
                simpa [Json.wf] using hwf
              rw [rt_fls k v fs f [] rest (by omega) hwf0.2]
              rw [insertAll_nil _ hwf0.1]
  termination_by v _ _ _ _ _ _ _ => sizeOf v

theorem rt_els : ∀ (x : Json) (xs : List Json) (f : Nat) (acc : List Json)
    (cs rest : List Char),
    skipWs cs = Json.dumpsItems (x :: xs) ++ cbkC :: rest →
    2 * (Json.dumpsItems (x :: xs)).length + 1 < f →
    Json.wfItems (x :: xs) = true →
    parseEls f acc cs = some (.arr (acc ++ x :: xs), rest)
  | _, _, 0, _, _, _, _, hf, _ => absurd hf (by omega)
  | x, [], f + 1, acc, cs, rest, hcs, hf, hwf => by
      have hxw : x.wf = true := by simpa [Json.wfItems] using hwf
      have hone : Json.dumpsItems [x] = Json.dumpsL x := rfl
      rw [hone] at hcs hf
      simp only [parseEls]
      rw [rt_val x f cs (cbkC :: rest) hcs (by omega) hxw
        (noDigitHead_cons cbkC rest (by decide))]
      simp only [Option.some_bind]
      rw [skipWs_cons_not cbkC rest (by decide)]
      match f, (by have := dumpsL_len_pos x; omega : 1 ≤ f) with
      | f + 1, _ =>
          simp only [parseElsAfter]
          rw [if_neg (by decide : ¬ cbkC = ',')]
          simp only [if_true]
  | x, y :: ys, f + 1, acc, cs, rest, hcs, hf, hwf => by
      have hxw : x.wf = true ∧ Json.wfItems (y :: ys) = true := by
        simpa [Json.wfItems] using hwf
      have hcons : Json.dumpsItems (x :: y :: ys)
          = Json.dumpsL x ++ ',' :: spC :: Json.dumpsItems (y :: ys) := rfl
      have hlen : (Json.dumpsItems (x :: y :: ys)).length
          = (Json.dumpsL x).length + 2 + (Json.dumpsItems (y :: ys)).length := by
        rw [hcons]; simp; omega
      rw [hcons, List.append_assoc] at hcs
      simp only [parseEls]
      rw [rt_val x f cs (',' :: spC :: (Json.dumpsItems (y :: ys) ++ cbkC :: rest))
        (by simpa using hcs) (by omega) hxw.1
        (noDigitHead_cons ',' _ (by decide))]
      simp only [Option.some_bind]
      rw [skipWs_cons_not ',' _ (by decide)]
      match f, (by have := dumpsL_len_pos x; omega : 2 ≤ f) with
      | f + 1, _ =>
          simp only [parseElsAfter]
          simp only [if_true]
          obtain ⟨c0, t0, hit, hws0, _, _⟩ := dumpsItems_head y ys
          rw [rt_els y ys f (acc ++ [x])
            (spC :: (Json.dumpsItems (y :: ys) ++ cbkC :: rest)) rest
            (by rw [skipWs_sp, hit, List.cons_append]
                exact skipWs_cons_not c0 _ hws0)
            (by omega) hxw.2]
          simp
  termination_by x xs _ _ _ _ _ _ _ => 1 + sizeOf x + sizeOf xs

theorem rt_fls : ∀ (k : String) (v : Json) (fs : List (String × Json)) (f : Nat)
    (acc : List (String × Json)) (rest : List Char),
    2 * (Json.dumpsFields ((k, v) :: fs)).length + 1 < f →
    Json.wfFields ((k, v) :: fs) = true →
    parseFlsK f acc (Json.dumpsFields ((k, v) :: fs) ++ cbC :: rest)
      = some (.obj (insertAll acc ((k, v) :: fs)), rest)
  | _, _, _, 0, _, _, hf, _ => absurd hf (by omega)
  | k, v, [], f + 1, acc, rest, hf, hwf => by
      have hvw : v.wf = true := by simpa [Json.wfFields] using hwf
      have hone : Json.dumpsFields [(k, v)]
          = qC :: (escapeChars k.data ++ (qC :: ':' :: spC :: Json.dumpsL v)) := rfl
      have hlen : (Json.dumpsFields [(k, v)]).length
          = (escapeChars k.data).length + 4 + (Json.dumpsL v).length := by
        rw [hone]; simp; omega
      rw [hone]
      have harr : (qC :: (escapeChars k.data ++ (qC :: ':' :: spC :: Json.dumpsL v)))
            ++ cbC :: rest
          = qC :: (escapeChars k.data
              ++ (qC :: (':' :: (spC :: (Json.dumpsL v ++ cbC :: rest))))) := by
        simp
      rw [harr]
      simp only [parseFlsK]
      simp only [eq_self_iff_true, if_true]
      rw [parseStrBody_escape]
      simp only [Option.some_bind]
      rw [skipWs_cons_not ':' _ (by decide)]
      match f, (by omega : 2 ≤ f) with
      | f + 1, _ =>
          simp only [parseFlsC]
          simp only [eq_self_iff_true, if_true]
          rw [rt_val v f (spC :: (Json.dumpsL v ++ cbC :: rest)) (cbC :: rest)
            (by rw [skipWs_sp]; exact skipWs_dumpsL v _) (by omega) hvw
            (noDigitHead_cons cbC rest (by decide))]
          simp only [Option.some_bind]
          rw [skipWs_cons_not cbC rest (by decide)]
          match f, (by have := dumpsL_len_pos v; omega : 1 ≤ f) with
          | f + 1, _ =>
              simp only [parseFlsV]
              rw [if_neg (by decide : ¬ cbC = ',')]
              simp only [if_true]
              show some (Json.obj (insertKey acc (String.mk k.data) v), rest)
                  = some (Json.obj (insertAll acc [(k, v)]), rest)
              rw [string_eta]
              rfl
  | k, v, (k2, v2) :: fs', f + 1, acc, rest, hf, hwf => by
      have hvw : v.wf = true ∧ Json.wfFields ((k2, v2) :: fs') = true := by
        simpa [Json.wfFields] using hwf
      have hcons : Json.dumpsFields ((k, v) :: (k2, v2) :: fs')
          = qC :: (escapeChars k.data ++ (qC :: ':' :: spC :: (Json.dumpsL v
              ++ ',' :: spC :: Json.dumpsFields ((k2, v2) :: fs')))) := rfl
      have hlen : (Json.dumpsFields ((k, v) :: (k2, v2) :: fs')).length
          = (escapeChars k.data).length + 6 + (Json.dumpsL v).length
            + (Json.dumpsFields ((k2, v2) :: fs')).length := by
        rw [hcons]; simp; omega
      rw [hcons]
      have harr : (qC :: (escapeChars k.data ++ (qC :: ':' :: spC :: (Json.dumpsL v
              ++ ',' :: spC :: Json.dumpsFields ((k2, v2) :: fs'))))) ++ cbC :: rest
          = qC :: (escapeChars k.data ++ (qC :: (':' :: (spC :: (Json.dumpsL v
              ++ ',' :: (spC :: (Json.dumpsFields ((k2, v2) :: fs') ++ cbC :: rest))))))) := by
        simp
      rw [harr]
      simp only [parseFlsK]
      simp only [eq_self_iff_true, if_true]
      rw [parseStrBody_escape]
      simp only [Option.some_bind]
      rw [skipWs_cons_not ':' _ (by decide)]
      match f, (by omega : 2 ≤ f) with
      | f + 1, _ =>
          simp only [parseFlsC]
          simp only [eq_self_iff_true, if_true]
          rw [rt_val v f (spC :: (Json.dumpsL v ++ ',' :: (spC
              :: (Json.dumpsFields ((k2, v2) :: fs') ++ cbC :: rest))))
            (',' :: (spC :: (Json.dumpsFields ((k2, v2) :: fs') ++ cbC :: rest)))
            (by rw [skipWs_sp]; exact skipWs_dumpsL v _) (by omega) hvw.1
            (noDigitHead_cons ',' _ (by decide))]
          simp only [Option.some_bind]
          rw [skipWs_cons_not ',' _ (by decide)]
          match f, (by have := dumpsL_len_pos v; omega : 1 ≤ f) with
          | f + 1, _ =>
              simp only [parseFlsV]
              simp only [if_true]
              rw [skipWs_sp]
              obtain ⟨t0, hft⟩ := dumpsFields_head k2 v2 fs'
              have hskip : skipWs (Json.dumpsFields ((k2, v2) :: fs') ++ cbC :: rest)
                  = Json.dumpsFields ((k2, v2) :: fs') ++ cbC :: rest := by
                rw [hft, List.cons_append]
                exact skipWs_cons_not qC _ (by decide)
              rw [hskip]
              rw [rt_fls k2 v2 fs' f (insertKey acc (String.mk k.data) v) rest
                (by omega) hvw.2]
              rw [string_eta]
              rfl
  termination_by _ v fs _ _ _ _ _ => 1 + sizeOf v + sizeOf fs

end

/-- The codec round-trip: parsing a serialized well-formed value recovers it.
(Well-formedness is required because the parser, like Python, collapses
duplicate object keys.) -/
theorem Json.parse_dumps (v : Json) (hwf : v.wf = true) :
    Json.parse (Json.dumps v) = some v := by
  have h1 : skipWs (Json.dumpsL v) = Json.dumpsL v ++ [] := by
    rw [List.append_nil]
    simpa using skipWs_dumpsL v []
  have h2 : parseV (2 * (Json.dumps v).length + 2) (Json.dumps v).data = some (v, []) := by
    show parseV (2 * (Json.dumpsL v).length + 2) (Json.dumpsL v) = some (v, [])
    exact rt_val v (2 * (Json.dumpsL v).length + 2) (Json.dumpsL v) [] h1 (by omega) hwf rfl
  unfold Json.parse
  rw [h2]
  simp [skipWs]

theorem wfItems_append_one (acc : List Json) (v : Json)
    (ha : Json.wfItems acc = true) (hv : v.wf = true) :
    Json.wfItems (acc ++ [v]) = true := by
  rw [wfItems_iff] at ha ⊢
  intro x hx
  rcases List.mem_append.mp hx with h | h
  · exact ha x h
  · rw [List.mem_singleton.mp h]; exact hv

theorem wfFields_insertKey (acc : List (String × Json)) (k : String) (v : Json)
    (ha : Json.wfFields acc = true) (hv : v.wf = true) :
    Json.wfFields (insertKey acc k v) = true := by
  rw [wfFields_iff] at ha ⊢
  intro p hp
  rcases insertKey_values acc k v p hp with h | h
  · exact ha p h
  · rw [h]; exact hv

theorem parse_wf_aux : ∀ f : Nat,
    (∀ cs v r, parseV f cs = some (v, r) → v.wf = true) ∧
    (∀ cs v r, parseVh f cs = some (v, r) → v.wf = true) ∧
    (∀ cs v r, parseAh f cs = some (v, r) → v.wf = true) ∧
    (∀ cs v r, parseOh f cs = some (v, r) → v.wf = true) ∧
    (∀ acc cs v r, Json.wfItems acc = true →
      parseEls f acc cs = some (v, r) → v.wf = true) ∧
    (∀ acc v0 cs v r, Json.wfItems acc = true → v0.wf = true →
      parseElsAfter f acc v0 cs = some (v, r) → v.wf = true) ∧
    (∀ acc cs v r, keysNodup acc = true → Json.wfFields acc = true →
      parseFlsK f acc cs = some (v, r) → v.wf = true) ∧
    (∀ acc k cs v r, keysNodup acc = true → Json.wfFields acc = true →
      parseFlsC f acc k cs = some (v, r) → v.wf = true) ∧
    (∀ acc k v0 cs v r, keysNodup acc = true → Json.wfFields acc = true → v0.wf = true →
      parseFlsV f acc k v0 cs = some (v, r) → v.wf = true) := by
  intro f
  induction f with
  | zero =>
      refine ⟨?_, ?_, ?_, ?_, ?_, ?_, ?_, ?_, ?_⟩ <;> intros <;>
        simp_all [parseV, parseVh, parseAh, parseOh, parseEls, parseElsAfter,
          parseFlsK, parseFlsC, parseFlsV]
  | succ f ih =>
      obtain ⟨ihV, ihVh, ihAh, ihOh, ihEls, ihElsA, ihFlsK, ihFlsC, ihFlsV⟩ := ih
      refine ⟨?_, ?_, ?_, ?_, ?_, ?_, ?_, ?_, ?_⟩
      · -- parseV
        intro cs v r h
        simp only [parseV] at h
        exact ihVh _ _ _ h
      · -- parseVh
        intro cs v r h
        rcases cs with _ | ⟨c, rr⟩
        · simp [parseVh] at h
        · simp only [parseVh] at h
          split at h
          · exact ihOh _ _ _ h
          · split at h
            · exact ihAh _ _ _ h
            · split at h
              · rcases hm : parseStrBody rr with _ | p
                · rw [hm] at h; simp at h
                · rw [hm] at h
                  simp only [Option.map_some'] at h
                  obtain ⟨h1, h2⟩ := Prod.mk.injEq .. ▸ (Option.some.injEq .. ▸ h)
                  rw [← h1]
                  rfl
              · split at h
                · split at h
                  · simp at h
                  · obtain ⟨h1, h2⟩ := Prod.mk.injEq .. ▸ (Option.some.injEq .. ▸ h)
                    rw [← h1]
                    rfl
                · split at h
                  · obtain ⟨h1, h2⟩ := Prod.mk.injEq .. ▸ (Option.some.injEq .. ▸ h)
                    rw [← h1]
                    rfl
                  · split at h
                    · obtain ⟨h1, h2⟩ := Prod.mk.injEq .. ▸ (Option.some.injEq .. ▸ h)
                      rw [← h1]
                      rfl
                    · split at h
                      · obtain ⟨h1, h2⟩ := Prod.mk.injEq .. ▸ (Option.some.injEq .. ▸ h)
                        rw [← h1]
                        rfl
                      · split at h
                        · obtain ⟨h1, h2⟩ := Prod.mk.injEq .. ▸ (Option.some.injEq .. ▸ h)
                          rw [← h1]
                          rfl
                        · simp at h
      · -- parseAh
        intro cs v r h
        rcases cs with _ | ⟨d, r2⟩
        · simp [parseAh] at h
        · simp only [parseAh] at h
          split at h
          · obtain ⟨h1, h2⟩ := Prod.mk.injEq .. ▸ (Option.some.injEq .. ▸ h)
            rw [← h1]
            rfl
          · exact ihEls [] _ _ _ rfl h
      · -- parseOh
        intro cs v r h
        rcases cs with _ | ⟨d, r2⟩
        · simp [parseOh] at h
        · simp only [parseOh] at h
          split at h
          · obtain ⟨h1, h2⟩ := Prod.mk.injEq .. ▸ (Option.some.injEq .. ▸ h)
            rw [← h1]
            rfl
          · exact ihFlsK [] _ _ _ rfl rfl h
      · -- parseEls
        intro acc cs v r hacc h
        simp only [parseEls] at h
        rcases hv : parseV f cs with _ | p
        · rw [hv] at h; simp at h
        · rw [hv] at h
          simp only [Option.some_bind] at h
          exact ihElsA _ _ _ _ _ hacc (ihV _ _ _ hv) h
      · -- parseElsAfter
        intro acc v0 cs v r hacc hv0 h
        rcases cs with _ | ⟨d, r2⟩
        · simp [parseElsAfter] at h
        · simp only [parseElsAfter] at h
          split at h
          · exact ihEls _ _ _ _ (wfItems_append_one acc v0 hacc hv0) h
          · split at h
            · obtain ⟨h1, h2⟩ := Prod.mk.injEq .. ▸ (Option.some.injEq .. ▸ h)
              rw [← h1]
              show Json.wfItems (acc ++ [v0]) = true
              exact wfItems_append_one acc v0 hacc hv0
            · simp at h
      · -- parseFlsK
        intro acc cs v r hnd hfl h
        rcases cs with _ | ⟨d, r2⟩
        · simp [parseFlsK] at h
        · simp only [parseFlsK] at h
          split at h
          · rcases hm : parseStrBody r2 with _ | p
            · rw [hm] at h; simp at h
            · rw [hm] at h
              simp only [Option.some_bind] at h
              exact ihFlsC _ _ _ _ _ hnd hfl h
          · simp at h
      · -- parseFlsC
        intro acc k cs v r hnd hfl h
        rcases cs with _ | ⟨e, r2⟩
        · simp [parseFlsC] at h
        · simp only [parseFlsC] at h
          split at h
          · rcases hv : parseV f r2 with _ | p
            · rw [hv] at h; simp at h
            · rw [hv] at h
              simp only [Option.some_bind] at h
              exact ihFlsV _ _ _ _ _ _ hnd hfl (ihV _ _ _ hv) h
          · simp at h
      · -- parseFlsV
        intro acc k v0 cs v r hnd hfl hv0 h
        rcases cs with _ | ⟨g, r4⟩
        · simp [parseFlsV] at h
        · simp only [parseFlsV] at h
          split at h
          · exact ihFlsK _ _ _ _ (insertKey_nodup acc k v0 hnd)
              (wfFields_insertKey acc k v0 hfl hv0) h
          · split at h
            · obtain ⟨h1, h2⟩ := Prod.mk.injEq .. ▸ (Option.some.injEq .. ▸ h)
              rw [← h1]
              show (keysNodup (insertKey acc k v0) && Json.wfFields (insertKey acc k v0)) = true
              rw [insertKey_nodup acc k v0 hnd, wfFields_insertKey acc k v0 hfl hv0]
              rfl
            · simp at h

/-- Values produced by the parser are well-formed (objects are Python dicts). -/
theorem Json.parse_wf (s : String) (v : Json) (h : Json.parse s = some v) :
    v.wf = true := by
  unfold Json.parse at h
  rcases hv : parseV (2 * s.length + 2) s.data with _ | p
  · rw [hv] at h; simp at h
  · rw [hv] at h
    obtain ⟨p1, p2⟩ := p
    have h2 : skipWs p2 = [] ∧ p1 = v := by simpa using h
    obtain rfl := h2.2
    exact (parse_wf_aux (2 * s.length + 2)).1 _ _ _ (by rw [hv])

/-! ## `_fix_json_string` (generator.py lines 104-139)

Each `re.sub` rewrite is modelled by a character scanner with leftmost,
non-overlapping semantics. Fuel is structural (always called with
`length + 1`, which the scanners never exhaust since every step consumes at
least one character). -/

/-- One rewrite `a\s*b → rep` (the comma/brace adjacency family of patterns at
lines 126-133). -/
def subPairF (a b : Char) (rep : List Char) : Nat → List Char → List Char
  | 0, l => l
  | _ + 1, [] => []
  | f + 1, c :: rest =>
      if c = a ∧ (rest.dropWhile isWsC).head? = some b then
        rep ++ subPairF a b rep f (rest.dropWhile isWsC).tail
      else c :: subPairF a b rep f rest

/-- Model of `re.sub` for one `a\s*b → rep` pattern. -/
def subPair (a b : Char) (rep : List Char) (l : List Char) : List Char :=
  subPairF a b rep (l.length + 1) l

/-- A position where the pattern `a\s*b` occurs. -/
def trigPair (a b : Char) : List Char → Bool
  | [] => false
  | c :: rest =>
      (decide (c = a) && decide ((rest.dropWhile isWsC).head? = some b))
        || trigPair a b rest

/-- Single-quoted key rewrite: `'([^']*)':` → `"\1":` (line 122). -/
def subSQKeyF : Nat → List Char → List Char
  | 0, l => l
  | _ + 1, [] => []
  | f + 1, c :: rest =>
      if c = sqC then
        let grp := rest.takeWhile (fun x => !(x = sqC))
        let r := rest.dropWhile (fun x => !(x = sqC))
        if r.head? = some sqC ∧ r.tail.head? = some ':' then
          qC :: (grp ++ qC :: ':' :: subSQKeyF f r.tail.tail)
        else c :: subSQKeyF f rest
      else c :: subSQKeyF f rest

def subSQKey (l : List Char) : List Char := subSQKeyF (l.length + 1) l

/-- Single-quoted value rewrite: `:\s*'([^']*)'` → `: "\1"` (line 123). -/
def subSQValF : Nat → List Char → List Char
  | 0, l => l
  | _ + 1, [] => []
  | f + 1, c :: rest =>
      if c = ':' then
        let w := rest.dropWhile isWsC
        if w.head? = some sqC then
          let grp := w.tail.takeWhile (fun x => !(x = sqC))
          let r := w.tail.dropWhile (fun x => !(x = sqC))
          if r.head? = some sqC then
            ':' :: spC :: qC :: (grp ++ qC :: subSQValF f r.tail)
          else c :: subSQValF f rest
        else c :: subSQValF f rest
      else c :: subSQValF f rest

def subSQVal (l : List Char) : List Char := subSQValF (l.length + 1) l

/-- Markdown fence opener removal: every occurrence of `` ```json\s* ``
(line 109). -/
def subMdOpenF : Nat → List Char → List Char
  | 0, l => l
  | _ + 1, [] => []
  | f + 1, c :: rest =>
      if c = btC ∧ rest.take 6 = [btC, btC, 'j', 's', 'o', 'n'] then
        subMdOpenF f ((rest.drop 6).dropWhile isWsC)
      else c :: subMdOpenF f rest

def subMdOpen (l : List Char) : List Char := subMdOpenF (l.length + 1) l

/-- Trailing markdown fence removal: `` ```\s*$ `` (line 110): the leftmost
backtick triple whose remainder is all whitespace, together with that
remainder, is deleted. -/
def subMdCloseF : Nat → List Char → List Char
  | 0, l => l
  | _ + 1, [] => []
  | f + 1, c :: rest =>
      if c = btC ∧ rest.take 2 = [btC, btC] ∧ (rest.drop 2).all isWsC then []
      else c :: subMdCloseF f rest

def subMdClose (l : List Char) : List Char := subMdCloseF (l.length + 1) l

/-- Python `str.strip()` (line 113). -/
def pyStrip (l : List Char) : List Char :=
  ((l.dropWhile isWsC).reverse.dropWhile isWsC).reverse

/-- Lines 116-119: slice from the first `{` to the last `}` when both exist
(Python allows the inverted slice, yielding the empty string). -/
def braceSpan (l : List Char) : List Char :=
  if l.contains obC ∧ l.contains cbC then
    let s := l.indexOf obC
    let e := l.length - 1 - l.reverse.indexOf cbC
    (l.drop s).take (e + 1 - s)
  else l

/-- Model of `TestCaseGenerator._fix_json_string` (lines 104-139), applying
the rewrites in source order. -/
def fix_json_string (s : String) : String :=
  let l1 := subMdOpen s.data
  let l2 := subMdClose l1
  let l3 := pyStrip l2
  let l4 := braceSpan l3
  let l5 := subSQKey l4
  let l6 := subSQVal l5
  let l7 := subPair ',' cbC [cbC] l6
  let l8 := subPair ',' cbkC [cbkC] l7
  let l9 := subPair cbC obC [cbC, ',', spC, obC] l8
  let l10 := subPair cbkC obC [cbkC, ',', spC, obC] l9
  let l11 := subPair cbC qC [cbC, ',', spC, qC] l10
  let l12 := subPair cbkC qC [cbkC, ',', spC, qC] l11
  String.mk l12

/-! ## `_sanitize_json_string` (generator.py lines 45-68) -/

/-- Python `str.replace` (leftmost, non-overlapping, non-empty pattern). -/
def pyReplaceF (pat rep : List Char) : Nat → List Char → List Char
  | 0, l => l
  | _ + 1, [] => []
  | f + 1, c :: rest =>
      if listPre pat (c :: rest) then
        rep ++ pyReplaceF pat rep f ((c :: rest).drop pat.length)
      else c :: pyReplaceF pat rep f rest

def pyReplace (pat rep : List Char) (l : List Char) : List Char :=
  pyReplaceF pat rep (l.length + 1) l

/-- The escape-scrubbing loop of lines 52-66: a backslash survives only when
followed by one of `bfnrt/`. -/
def sanitizeLoop : List Char → List Char
  | [] => []
  | [c] => if c = bsC then [] else [c]
  | c :: e :: rest2 =>
      if c = bsC then
        (if e ∈ ['b', 'f', 'n', 'r', 't', '/'] then bsC :: e :: sanitizeLoop rest2
         else sanitizeLoop (e :: rest2))
      else c :: sanitizeLoop (e :: rest2)

/-- Model of `TestCaseGenerator._sanitize_json_string` (lines 45-68). -/
def sanitize_json_string (s : String) : String :=
  let l1 := pyReplace [bsC, sqC] [sqC] s.data
  let l2 := pyReplace [bsC, qC] [qC] l1
  let l3 := pyReplace [bsC, bsC] [bsC] l2
  String.mk (sanitizeLoop l3)

/-! ## `_extract_json_from_text` (generator.py lines 141-194) -/

/-- The canonical default assertion rule (lines 178-185 and elsewhere). -/
def defaultRule : Json :=
  .obj [("matchType", .str "equal"), ("dataPath", .str "result"),
        ("columns", .obj [("result", .num 0)])]

/-- The default rule payload `{"rules": [defaultRule]}`. -/
def defaultRules : Json := .obj [("rules", .arr [defaultRule])]

/-- The forced headers value (line 100 and line 175). -/
def contentTypeHeaders : Json := .obj [("Content-Type", .str "application/json")]

/-- Substring test (Python `in` on strings). -/
def strContainsSub (s pat : String) : Bool :=
  s.data.tails.any (fun t => listPre pat.data t)

/-- Attempt the regex `"<field>"\s*:\s*"([^"]*)"` at the current position. -/
def matchQuotedAt (field : List Char) (l : List Char) : Option (List Char) :=
  if listPre (qC :: (field ++ [qC])) l then
    let r1 := (l.drop (field.length + 2)).dropWhile isWsC
    if r1.head? = some ':' then
      let r2 := r1.tail.dropWhile isWsC
      if r2.head? = some qC then
        let grp := r2.tail.takeWhile (fun x => !(x = qC))
        let r3 := r2.tail.dropWhile (fun x => !(x = qC))
        if r3.head? = some qC then some grp else none
      else none
    else none
  else none

/-- Model of `re.search` for the field regex: leftmost match. -/
def searchQuotedF (field : List Char) : Nat → List Char → Option (List Char)
  | 0, _ => none
  | _ + 1, [] => none
  | f + 1, c :: rest =>
      match matchQuotedAt field (c :: rest) with
      | some grp => some grp
      | none => searchQuotedF field f rest

/-- Group 1 of `re.search(r'"<field>"\s*:\s*"([^"]*)"', text)`, group 1. -/
def searchQuoted (field : String) (text : String) : Option String :=
  (searchQuotedF field.data (text.data.length + 1) text.data).map String.mk

/-- The fallback candidate of lines 171-187. -/
def fallbackCase (tid name : String) : Json :=
  .obj [("id", .str tid), ("name", .str name), ("param", .str "\x7b\x7d"),
        ("headers", contentTypeHeaders), ("rule", .str (Json.dumps defaultRules))]

/-- Model of `TestCaseGenerator._extract_json_from_text` (lines 141-194).
`genId` stands for `str(uuid.uuid4())` (line 168).  The function is total on
string inputs: the only exception raised inside the `try` block is
`json.JSONDecodeError` from `json.loads` (regex and string operations cannot
raise), so the `except Exception` re-raise of lines 192-194 is unreachable. -/
def extract_json_from_text (genId : String) (text : String) : Json :=
  match Json.parse (fix_json_string text) with
  | some j => j
  | none =>
      let name := (searchQuoted "name" text).getD "Generated Test Case"
      let tid := (searchQuoted "id" text).getD genId
      fallbackCase tid name

/-! ## `_sanitize_test_case` (generator.py lines 70-102) -/

/-- Python `field in value`: key test on dicts, membership on lists,
substring on strings, `TypeError` otherwise. -/
def pyContains (j : Json) (field : String) : Except String Bool :=
  match j with
  | .obj fs => .ok (fs.any (fun p => p.1 = field))
  | .arr xs => .ok (xs.any (fun x => x = .str field))
  | .str s => .ok (strContainsSub s field)
  | _ => .error "TypeError: argument is not iterable"

/-- The required-field loop of lines 75-79. -/
def checkRequired (tc : Json) : List String → Except String Unit
  | [] => .ok ()
  | fname :: rest =>
      match pyContains tc fname with
      | .error e => .error e
      | .ok true => checkRequired tc rest
      | .ok false => .error ("Missing required field: " ++ fname)

/-- The five required fields (line 75). -/
def requiredFields : List String := ["id", "name", "param", "headers", "rule"]

/-- Model of `TestCaseGenerator._sanitize_test_case` (lines 70-102): require
all five fields, add `api_name` and `type`, force `param` and `rule` to
strings (serializing structured values, escape-scrubbing strings), and force
`headers` to the canonical content type. -/
def sanitize_test_case (tc : Json) (apiName testType : String) : Except String Json := do
  let _ ← checkRequired tc requiredFields
  match tc with
  | .obj _ =>
      let tc1 := (tc.objSet "api_name" (.str apiName)).objSet "type" (.str testType)
      let tc2 :=
        match tc1.objGet "param" with
        | some (.str s) => tc1.objSet "param" (.str (sanitize_json_string s))
        | some v => tc1.objSet "param" (.str (Json.dumps v))
        | none => tc1
      let tc3 :=
        match tc2.objGet "rule" with
        | some (.str s) => tc2.objSet "rule" (.str (sanitize_json_string s))
        | some v => tc2.objSet "rule" (.str (Json.dumps v))
        | none => tc2
      .ok (tc3.objSet "headers" contentTypeHeaders)
  | _ => .error "TypeError: object does not support item assignment"

/-! ## Rule validation (generator.py lines 234-296) -/

/-- The closed set of `matchType` values (line 273). -/
def validMatchTypes : List Json :=
  [.str "top", .str "equal", .str "min", .str "max", .str "pos", .str "not_in"]

/-- The index-requiring `matchType` values (line 277). -/
def indexMatchTypes : List Json := [.str "top", .str "pos", .str "not_in"]

/-- Per-entry fix-up (lines 271-293).  Object entries are patched field by
field (`matchType` reset to `"equal"` when absent or invalid, `index`
defaulted to `"1"` for `top`/`pos`/`not_in`, `dataPath` to `"result"`,
`columns` to `{"result": 0}`).  Every non-object entry raises a `TypeError`
inside the loop body and is replaced wholesale by the default rule
(the `except` of lines 286-293). -/
def fixRuleEntry (e : Json) : Json :=
  match e with
  | .obj _ =>
      let e1 :=
        if (match e.objGet "matchType" with
            | none => true
            | some v => !(validMatchTypes.any (fun m => m = v))) = true
        then e.objSet "matchType" (.str "equal") else e
      let e2 :=
        if (match e1.objGet "matchType" with
            | some v => indexMatchTypes.any (fun m => m = v)
            | none => false) = true ∧ e1.hasKey "index" = false
        then e1.objSet "index" (.str "1") else e1
      let e3 :=
        if e2.hasKey "dataPath" = false
        then e2.objSet "dataPath" (.str "result") else e2
      let e4 :=
        if e3.hasKey "columns" = false
        then e3.objSet "columns" (.obj [("result", .num 0)]) else e3
      e4
  | _ => defaultRule

/-- The rule-validation block of `_generate_test_case` (lines 234-296) applied
to the sanitized candidate: parse the rule string (defaulting on parse
failure), check for a `rules` list (the check at line 254 raises `TypeError`
when the parsed payload is a number, boolean, `None`, or a list/string that
contains `"rules"`), patch every entry, and store the re-serialized payload.
The result is the candidate dict as of line 297. -/
def validate_rules (tc : Json) : Except String Json := do
  let r0 : Json ←
    match tc.objGet "rule" with
    | some (.str s) =>
        (match Json.parse s with
         | some r => Except.ok r
         | none => Except.ok defaultRules)
    | some v => Except.ok v
    | none => Except.error "KeyError: rule"
  let r1 : Json ←
    match r0 with
    | .obj _ =>
        (match r0.objGet "rules" with
         | some (.arr _) => Except.ok r0
         | some _ => Except.ok defaultRules
         | none => Except.ok defaultRules)
    | .arr xs =>
        if xs.any (fun x => x = .str "rules")
        then Except.error "TypeError: list indices must be integers"
        else Except.ok defaultRules
    | .str s =>
        if strContainsSub s "rules"
        then Except.error "TypeError: string indices must be integers"
        else Except.ok defaultRules
    | _ => Except.error "TypeError: argument is not iterable"
  match r1.objGet "rules" with
  | some (.arr entries) =>
      let r2 := r1.objSet "rules" (.arr (entries.map fixRuleEntry))
      .ok (tc.objSet "rule" (.str (Json.dumps r2)))
  | _ => .error "unreachable"

/-- The deterministic validation stage of `_generate_test_case`: sanitize
(line 232) then rule validation (lines 234-296). -/
def processCase (cand : Json) (apiName testType : String) : Except String Json := do
  let tc ← sanitize_test_case cand apiName testType
  validate_rules tc

/-! ## The pydantic `TestCase` model (models/test_case.py lines 19-38)

The repository's `TestCase` model requires `id`, `name`, `description`,
`type`, `input_data` and `expected_output`; `param`, `headers` and `rule` are
not fields of the model at all (pydantic ignores extra keys). -/

/-- A validated `TestCase` object (field `type` renamed to `tcType`). -/
structure TestCaseM where
  id : String
  name : String
  description : String
  tcType : String
  input_data : Json
  expected_output : Json
  preconditions : Option (List String)
  postconditions : Option (List String)
  tags : List String
  performance_metrics : Option Json
  expected_exception : Option String
deriving Repr, DecidableEq

/-- pydantic v1 coercion to `str` (numbers and booleans stringify). -/
def coerceStr : Json → Except String String
  | .str s => .ok s
  | .num n => .ok (String.mk (intChars n))
  | .bool b => .ok (if b then "True" else "False")
  | _ => .error "ValidationError: str type expected"

/-- pydantic v1 coercion to `List[str]`. -/
def coerceStrList : Json → Except String (List String)
  | .arr xs => xs.mapM coerceStr
  | _ => .error "ValidationError: list type expected"

/-- The `TestCaseType` enumeration values (models/test_case.py lines 5-10). -/
def tcTypeValues : List String := ["functional", "performance", "boundary", "exception"]

/-- A required pydantic field. -/
def requireField (d : Json) (f : String) : Except String Json :=
  match d.objGet f with
  | some v => .ok v
  | none => .error ("ValidationError: field required: " ++ f)

/-- Model of `TestCase(**test_case)` (generator.py line 299 against
models/test_case.py lines 19-38): pydantic validation of the candidate dict. -/
def mkTestCase (d : Json) : Except String TestCaseM :=
  match d with
  | .obj _ => do
      let idv ← requireField d "id" >>= coerceStr
      let namev ← requireField d "name" >>= coerceStr
      let descv ← requireField d "description" >>= coerceStr
      let typev0 ← requireField d "type" >>= coerceStr
      let typev ←
        if tcTypeValues.any (fun t => t = typev0) then Except.ok typev0
        else Except.error "ValidationError: not a valid enumeration member"
      let inputv ←
        match d.objGet "input_data" with
        | some (.obj fs) => Except.ok (Json.obj fs)
        | some _ => Except.error "ValidationError: dict expected"
        | none => Except.error "ValidationError: field required: input_data"
      let outputv ←
        match d.objGet "expected_output" with
        | some (.obj fs) => Except.ok (Json.obj fs)
        | some _ => Except.error "ValidationError: dict expected"
        | none => Except.error "ValidationError: field required: expected_output"
      let prev ←
        match d.objGet "preconditions" with
        | none => Except.ok (some [])
        | some .null => Except.ok none
        | some v => (coerceStrList v).map some
      let postv ←
        match d.objGet "postconditions" with
        | none => Except.ok (some [])
        | some .null => Except.ok none
        | some v => (coerceStrList v).map some
      let tagsv ←
        match d.objGet "tags" with
        | none => Except.ok []
        | some v => coerceStrList v
      let perfv ←
        match d.objGet "performance_metrics" with
        | none => Except.ok none
        | some .null => Except.ok none
        | some (.obj fs) => Except.ok (some (Json.obj fs))
        | some _ => Except.error "ValidationError: dict expected"
      let excv ←
        match d.objGet "expected_exception" with
        | none => Except.ok none
        | some .null => Except.ok none
        | some v => (coerceStr v).map some
      .ok ⟨idv, namev, descv, typev, inputv, outputv, prev, postv, tagsv, perfv, excv⟩
  | _ => .error "ValidationError: not a dict"

/-- pydantic `.dict()` on a `TestCase` (used at line 330 and in the CLI). -/
def TestCaseM.toDict (t : TestCaseM) : Json :=
  .obj [("id", .str t.id), ("name", .str t.name), ("description", .str t.description),
        ("type", .str t.tcType), ("input_data", t.input_data),
        ("expected_output", t.expected_output),
        ("preconditions", t.preconditions.elim Json.null (fun l => .arr (l.map Json.str))),
        ("postconditions", t.postconditions.elim Json.null (fun l => .arr (l.map Json.str))),
        ("tags", .arr (t.tags.map Json.str)),
        ("performance_metrics", t.performance_metrics.elim Json.null (fun x => x)),
        ("expected_exception", t.expected_exception.elim Json.null Json.str)]

/-! ## `_generate_test_case` and `generate_test_cases` (generator.py 196-335) -/

/-- Model of one `_generate_test_case` invocation (lines 196-313).
`resp` is the outcome of `self.llm.invoke` (`.error` = provider exception),
`genId` models `uuid.uuid4()` for the repair fallback, and `similar` is the
`similar_cases` argument.  Returns the run outcome — the constructed
`TestCase` object together with the final candidate dict (which is what
`rag.add_test_cases` receives at line 304; a failure there is only warned
about) — and the number of similarity-store queries performed (the
`_get_similar_cases` call at line 202 runs exactly when `similar` is `None`).
Every exception is wrapped as `ValueError("Failed to generate test case: …")`
(lines 311-313). -/
def generate_test_case (resp : Except String String) (genId : String)
    (apiName testType : String) (similar : Option (List Json)) :
    Except String (TestCaseM × Json) × Nat :=
  let queries : Nat := match similar with | none => 1 | some _ => 0
  let r : Except String (TestCaseM × Json) := do
    let text ← resp
    let cand := extract_json_from_text genId text
    let tc ← processCase cand apiName testType
    let obj ← mkTestCase tc
    .ok (obj, tc)
  (match r with
   | .ok v => .ok v
   | .error e => .error ("Failed to generate test case: " ++ e), queries)

/-- Observable state of a batch run: invocation counter, produced cases,
dicts handed to the store, the `similar_cases` context passed to each
invocation, and the number of similarity-store queries. -/
structure RunState where
  k : Nat
  produced : List TestCaseM
  ragDocs : List Json
  contexts : List (List Json)
  queries : Nat
deriving Repr

/-- The state at the start of `generate_test_cases`. -/
def initRunState : RunState := ⟨0, [], [], [], 0⟩

/-- The inner loop of `generate_test_cases` (lines 325-332): `n` cases of one
type; each invocation receives the previously produced cases as context
(line 330) and an uncaught exception aborts the loop. -/
def runCases (model : Nat → Except String String) (genIds : Nat → String)
    (apiName testType : String) : Nat → RunState → RunState × Option String
  | 0, st => (st, none)
  | n + 1, st =>
      let ctx := st.produced.map TestCaseM.toDict
      let (res, q) := generate_test_case (model st.k) (genIds st.k) apiName testType (some ctx)
      match res with
      | .ok (tc, d) =>
          runCases model genIds apiName testType n
            { k := st.k + 1, produced := st.produced ++ [tc],
              ragDocs := st.ragDocs ++ [d],
              contexts := st.contexts ++ [ctx], queries := st.queries + q }
      | .error e =>
          ({ st with
              k := st.k + 1
              contexts := st.contexts ++ [ctx]
              queries := st.queries + q }, some e)

/-- The `GUIDELINES` keys (prompts.py), checked at line 321. -/
def validTestTypes : List String := ["functional", "performance", "boundary", "exception"]

/-- The outer loop over test types (lines 320-332). -/
def runTypes (model : Nat → Except String String) (genIds : Nat → String)
    (apiName : String) (numCases : Nat) : List String → RunState → RunState × Option String
  | [], st => (st, none)
  | t :: ts, st =>
      if validTestTypes.any (fun x => x = t) then
        match runCases model genIds apiName t numCases st with
        | (st1, none) => runTypes model genIds apiName numCases ts st1
        | (st1, some e) => (st1, some e)
      else (st, some ("Unknown test type: " ++ t))

/-- Model of `TestCaseGenerator.generate_test_cases` (lines 315-335): the full
batch run.  The second component is `none` when the call returns normally and
`some e` when it raises `e`. -/
def generate_test_cases (model : Nat → Except String String) (genIds : Nat → String)
    (apiName : String) (testTypes : List String) (numCases : Nat) :
    RunState × Option String :=
  runTypes model genIds apiName numCases testTypes initRunState

/-- The value `generate_test_cases` returns (or the exception it raises). -/
def batchResult (model : Nat → Except String String) (genIds : Nat → String)
    (apiName : String) (testTypes : List String) (numCases : Nat) :
    Except String (List TestCaseM) :=
  match generate_test_cases model genIds apiName testTypes numCases with
  | (st, none) => .ok st.produced
  | (_, some e) => .error e

/-! ## The data model (models/api.py) -/

/-- Model of `APIParameter` (models/api.py lines 4-11). -/
structure APIParameter where
  name : String
  ptype : String
  description : Option String
  required : Bool
  dflt : Option Json
  constraints : Option Json
deriving Repr

/-- Model of `APIDefinition` (models/api.py lines 13-30). -/
structure APIDefinition where
  name : String
  description : Option String
  method : String
  path : Option String
  input_params : List (String × APIParameter)
  output_params : List (String × APIParameter)
deriving Repr

/-- The call of `generate_test_cases` from the CLI: only the definition's name
reaches the validator (the rest of `api_definition.dict()` feeds the prompt,
which the model parameter abstracts). -/
def generator_run (model : Nat → Except String String) (genIds : Nat → String)
    (api : APIDefinition) (testTypes : List String) (numCases : Nat) :
    Except String (List TestCaseM) :=
  batchResult model genIds api.name testTypes numCases

/-! ## The similarity store (core/rag.py) -/

/-- One indexed chunk with its metadata (rag.py lines 83-91). -/
structure RagDoc where
  content : String
  meta_id : Option Json
  meta_type : Option Json
  meta_api : Option Json
deriving Repr, DecidableEq

/-- The placeholder document created by `FAISS.from_texts(["placeholder"])`
(line 67). -/
def placeholderDoc : RagDoc := ⟨"placeholder", none, none, none⟩

/-- In-memory index plus the on-disk copy (`None` = no file at the path). -/
structure RagState where
  mem : List RagDoc
  disk : Option (List RagDoc)
deriving Repr

/-- Model of `TestCaseRAG._load_or_create_vector_store` (rag.py lines 56-72):
an existing path is loaded; otherwise a fresh index seeded with the
placeholder is created and saved immediately. -/
def load_or_create_vector_store (disk : Option (List RagDoc)) : RagState :=
  match disk with
  | some docs => ⟨docs, some docs⟩
  | none => ⟨[placeholderDoc], some [placeholderDoc]⟩

/-- Chunking of one case (lines 77-94): serialize, split with the external
text splitter (abstract parameter `split`), attach the metadata. -/
def chunkDocs (split : String → List String) (tc : Json) : List RagDoc :=
  (split (Json.dumps tc)).map
    (fun c => ⟨c, tc.objGet "id", tc.objGet "type", tc.objGet "api_name"⟩)

/-- Model of `TestCaseRAG.add_test_cases` (lines 74-99): build the documents,
add them to the store (`embedFails` models an embedding-provider failure
inside `add_documents`, which propagates before anything is saved), then save
the updated store to disk before returning. -/
def add_test_cases (split : String → List String) (embedFails : RagDoc → Bool)
    (st : RagState) (cases : List Json) : Except String RagState :=
  let docs := cases.flatMap (chunkDocs split)
  if docs.any embedFails then .error "embedding provider error"
  else
    let mem := st.mem ++ docs
    .ok ⟨mem, some mem⟩

/-! # The claims

Each claim of the specification is settled by one theorem below; corrected
claims additionally get a concrete counterexample against the original
wording, and theorems with hypotheses get a closed witness instance. -/

/-! ## C4: which fields the validator requires -/

/-- Unfolding of the required-field loop on an object candidate. -/
theorem checkRequired_cons (fs : List (String × Json)) (f : String)
    (rest : List String) :
    checkRequired (.obj fs) (f :: rest)
      = if Json.hasKey (.obj fs) f = true then checkRequired (.obj fs) rest
        else .error ("Missing required field: " ++ f) := by
  cases hf : Json.hasKey (Json.obj fs) f with
  | true =>
      have hp : pyContains (Json.obj fs) f = .ok true := by rw [← hf]; rfl
      simp [checkRequired, hp]
  | false =>
      have hp : pyContains (Json.obj fs) f = .ok false := by rw [← hf]; rfl
      simp [checkRequired, hp]

/-- The required-field loop accepts an object exactly when every listed field
is a key of it (no field is ever synthesized before the check). -/
theorem checkRequired_obj_ok (fs : List (String × Json)) :
    ∀ l : List String, ((checkRequired (.obj fs) l).isOk = true
      ↔ l.all (fun f => Json.hasKey (.obj fs) f) = true)
  | [] => by simp [checkRequired, Except.isOk, Except.toBool]
  | f :: rest => by
      rw [checkRequired_cons]
      simp only [List.all_cons]
      cases hf : Json.hasKey (Json.obj fs) f with
      | true =>
          rw [if_pos rfl, Bool.true_and]
          exact checkRequired_obj_ok fs rest
      | false =>
          rw [if_neg (by simp), Bool.false_and]
          simp [Except.isOk, Except.toBool]

/-- On object candidates, `_sanitize_test_case` succeeds exactly when the
required-field check does (everything after it is pure dict surgery). -/
theorem sanitize_isOk_eq (fs : List (String × Json)) (a t : String) :
    (sanitize_test_case (.obj fs) a t).isOk
      = (checkRequired (.obj fs) requiredFields).isOk := by
  unfold sanitize_test_case
  rcases hc : checkRequired (.obj fs) requiredFields with e | u <;> rfl

/-- C4 (amended): `_sanitize_test_case` accepts an object candidate iff all
five of `id`, `name`, `param`, `headers`, `rule` are already present keys; it
synthesizes none of them (generator.py lines 74-79 raise `ValueError` at the
first missing field — `id` is not generated, and `param`/`headers` are not
filled in). -/
theorem c4_amended_required_fields (fs : List (String × Json))
    (apiName testType : String) :
    (sanitize_test_case (.obj fs) apiName testType).isOk = true
      ↔ requiredFields.all (fun f => Json.hasKey (.obj fs) f) = true := by
  rw [sanitize_isOk_eq]
  exact checkRequired_obj_ok fs requiredFields

/-- C4 counterexample: a repaired candidate that contains a `name` (the only
field the spec calls truly required) is rejected with
`Missing required field: id`, not accepted. -/
theorem c4_counterexample :
    sanitize_test_case (.obj [("name", .str "x")]) "api" "functional"
      = Except.error "Missing required field: id" := by rfl

/-! ## C7: headers are forced to the canonical content type -/

/-- Bind of `Except` on a success. -/
theorem except_bind_ok {α β : Type} (u : α) (f : α → Except String β) :
    (Except.ok u >>= f : Except String β) = f u := rfl

/-- Bind of `Except` on a failure. -/
theorem except_bind_error {α β : Type} (e : String) (f : α → Except String β) :
    (Except.error e >>= f : Except String β) = Except.error e := rfl

/-- C7: whenever `_sanitize_test_case` accepts a candidate — whatever value the
model supplied under `headers`, mapping, string or wrong content type — the
result carries `headers = {"Content-Type": "application/json"}` (the
unconditional assignment at generator.py line 100). -/
theorem c7_headers_forced (cand : Json) (apiName testType : String) (out : Json)
    (h : sanitize_test_case cand apiName testType = Except.ok out) :
    out.objGet "headers" = some contentTypeHeaders := by
  unfold sanitize_test_case at h
  rcases hok : checkRequired cand requiredFields with e | u
  · rw [hok, except_bind_error] at h
    exact Except.noConfusion h
  · rw [hok, except_bind_ok] at h
    cases cand with
    | obj fs =>
        simp only [Except.ok.injEq] at h
        subst h
        split <;> split <;>
          (simp only [Json.objSet, Json.objGet]
           exact lookupKey_insertKey_same _ _ _)
    | null => simp at h
    | bool b => simp at h
    | num n => simp at h
    | str s => simp at h
    | arr xs => simp at h

/-- C7 witness: a candidate arriving with `headers` set to `text/html` is
accepted and leaves with the canonical JSON content-type headers. -/
theorem c7_headers_forced_witness :
    ∃ out, sanitize_test_case
        (Json.obj [("id", .str "1"), ("name", .str "n"), ("param", .str "\x7b\x7d"),
                   ("headers", .str "text/html"), ("rule", .obj [])])
        "api" "functional" = Except.ok out
      ∧ out.objGet "headers" = some contentTypeHeaders := by
  have h : sanitize_test_case
      (Json.obj [("id", .str "1"), ("name", .str "n"), ("param", .str "\x7b\x7d"),
                 ("headers", .str "text/html"), ("rule", .obj [])])
      "api" "functional"
      = Except.ok (Json.obj
          [("id", .str "1"), ("name", .str "n"), ("param", .str "\x7b\x7d"),
           ("headers", contentTypeHeaders), ("rule", .str "\x7b\x7d"),
           ("api_name", .str "api"), ("type", .str "functional")]) := by rfl
  exact ⟨_, h, c7_headers_forced _ "api" "functional" _ h⟩

/-! ## C3: the extraction fallback -/

/-- C3: `_extract_json_from_text` is total — it returns on every input — and
whenever parsing the repaired text fails it returns the fallback object whose
`id` is regex-extracted from the text (else the fresh `genId`), whose `name`
is regex-extracted (else `"Generated Test Case"`), with `param = "\x7b\x7d"`
(the two-character string of braces), the canonical content-type headers, and
the serialized default rule payload whose single entry is the canonical
default rule. -/
theorem c3_fallback_guarantee (genId text : String)
    (h : Json.parse (fix_json_string text) = none) :
    extract_json_from_text genId text
        = fallbackCase ((searchQuoted "id" text).getD genId)
            ((searchQuoted "name" text).getD "Generated Test Case")
      ∧ (extract_json_from_text genId text).objGet "param" = some (.str "\x7b\x7d")
      ∧ (extract_json_from_text genId text).objGet "headers" = some contentTypeHeaders
      ∧ (extract_json_from_text genId text).objGet "rule"
          = some (.str (Json.dumps (Json.obj [("rules", Json.arr [Json.obj
              [("matchType", .str "equal"), ("dataPath", .str "result"),
               ("columns", .obj [("result", .num 0)])]])]))) := by
  unfold extract_json_from_text
  rw [h]
  exact ⟨rfl, rfl, rfl, rfl⟩

/-- C3 witness: the refusal text `"I cannot do that."` does not parse even
after repair, and the extraction returns the fallback with the fresh id and
the default name. -/
theorem c3_fallback_guarantee_witness :
    Json.parse (fix_json_string "I cannot do that.") = none
      ∧ extract_json_from_text "uuid-42" "I cannot do that."
          = fallbackCase "uuid-42" "Generated Test Case" := by
  have h : Json.parse (fix_json_string "I cannot do that.") = none := by rfl
  exact ⟨h, (c3_fallback_guarantee "uuid-42" "I cannot do that." h).1⟩

/-! ## C9: synchronous persistence of the similarity index -/

/-- C9: every successful `add_test_cases` saves the updated index to disk
before returning (`save_local` at rag.py line 97 runs on the same call), and
startup with no on-disk index creates the placeholder-seeded store and
persists it immediately (lines 64-69). -/
theorem c9_synchronous_persistence :
    (∀ (split : String → List String) (embedFails : RagDoc → Bool)
        (st : RagState) (cases : List Json) (st' : RagState),
        add_test_cases split embedFails st cases = Except.ok st' →
        st'.disk = some st'.mem)
    ∧ load_or_create_vector_store none = ⟨[placeholderDoc], some [placeholderDoc]⟩ := by
  constructor
  · intro sp embedFails st cases st' h
    unfold add_test_cases at h
    by_cases hd : (cases.flatMap (chunkDocs sp)).any embedFails = true
    · simp only [hd, if_true] at h
      exact Except.noConfusion h
    · simp only [hd, if_false, Bool.false_eq_true, Except.ok.injEq] at h
      subst h
      rfl
  · rfl

/-! ## C2: the end-to-end happy path of the documented schema -/

/-- A model response that follows exactly the five-field schema the prompt and
the spec document (`id`, `name`, `param`, `headers`, `rule`). -/
def specSchemaResp : String :=
  Json.dumps (Json.obj
    [("id", .str "tc-1"), ("name", .str "basic"),
     ("param", .str (Json.dumps (Json.obj []))),
     ("headers", contentTypeHeaders),
     ("rule", .str (Json.dumps defaultRules))])

set_option maxRecDepth 10000 in
/-- C2: with one required string input parameter, `test_types=["functional"]`
and `num_cases=1`, and the model answering precisely in the documented
response schema, the orchestrator does not return one TestCase — it raises:
the pydantic `TestCase` model (models/test_case.py lines 19-38) requires
`description`, `input_data` and `expected_output`, which neither the
documented schema nor any repair step supplies, so `TestCase(**test_case)` at
generator.py line 299 fails and the error propagates out of the batch loop. -/
theorem c2_spec_schema_pipeline_fails :
    generator_run (fun _ => Except.ok specSchemaResp) (fun _ => "uuid-0")
      ⟨"test_api", none, "POST", none,
        [("query", ⟨"query", "string", none, true, none, none⟩)], []⟩
      ["functional"] 1
      = Except.error
          "Failed to generate test case: ValidationError: field required: description" := by
  rfl

/-! ## C1: failure of one case aborts the whole batch -/

/-- A model response carrying both the documented schema's fields and the
pydantic model's required fields, so that one generation unit succeeds
end-to-end. -/
def fullResp : String :=
  Json.dumps (Json.obj
    [("id", .str "1"), ("name", .str "n"), ("param", .obj []),
     ("headers", .obj []), ("rule", .obj [("rules", .arr [])]),
     ("description", .str "d"), ("input_data", .obj []),
     ("expected_output", .obj [])])

set_option maxRecDepth 40000 in
/-- C1 counterexample: in a batch of two `functional` cases where only the
first model invocation fails (`LLM down`) and the second would succeed — the
very same response succeeds as a standalone unit — the batch loop has no
per-case `try`/`except` (generator.py lines 315-335), so the whole run raises
and returns no cases at all instead of the one producible case. -/
theorem c1_counterexample :
    batchResult
        (fun k => if k = 0 then Except.error "LLM down" else Except.ok fullResp)
        (fun _ => "u") "api" ["functional"] 2
      = Except.error "Failed to generate test case: LLM down"
    ∧ (generate_test_case (Except.ok fullResp) "u" "api" "functional" (some [])).1.isOk
        = true := by
  exact ⟨rfl, rfl⟩

/-- A batch inner loop that returns normally produced one case per iteration:
nothing is skipped (and, with the counterexample above, nothing partial is
ever returned on failure). -/
theorem runCases_ok_length (model : Nat → Except String String)
    (genIds : Nat → String) (a t : String) :
    ∀ (n : Nat) (st st' : RunState),
      runCases model genIds a t n st = (st', none) →
      st'.produced.length = st.produced.length + n
  | 0, st, st', h => by
      simp only [runCases, Prod.mk.injEq] at h
      rw [← h.1]
      omega
  | n + 1, st, st', h => by
      simp only [runCases] at h
      rcases hgen : generate_test_case (model st.k) (genIds st.k) a t
          (some (st.produced.map TestCaseM.toDict)) with ⟨res, q⟩
      rw [hgen] at h
      rcases res with e | ⟨tc, d⟩
      case mk.error =>
        replace h : (({ st with
              k := st.k + 1
              contexts := st.contexts ++ [st.produced.map TestCaseM.toDict]
              queries := st.queries + q } : RunState), some e) = (st', none) := h
        exact Option.noConfusion (congrArg Prod.snd h)
      case mk.ok.mk =>
        replace h : runCases model genIds a t n
            { k := st.k + 1, produced := st.produced ++ [tc],
              ragDocs := st.ragDocs ++ [d],
              contexts := st.contexts ++ [st.produced.map TestCaseM.toDict],
              queries := st.queries + q } = (st', none) := h
        have ih := runCases_ok_length model genIds a t n _ st' h
        simp only [List.length_append, List.length_cons, List.length_nil] at ih
        omega

/-- A batch outer loop that returns normally produced `numCases` cases for
every listed type. -/
theorem runTypes_ok_length (model : Nat → Except String String)
    (genIds : Nat → String) (a : String) (numCases : Nat) :
    ∀ (ts : List String) (st st' : RunState),
      runTypes model genIds a numCases ts st = (st', none) →
      st'.produced.length = st.produced.length + ts.length * numCases
  | [], st, st', h => by
      simp only [runTypes, Prod.mk.injEq] at h
      rw [← h.1]
      simp
  | t :: ts, st, st', h => by
      simp only [runTypes] at h
      by_cases hv : (validTestTypes.any fun x => decide (x = t)) = true
      · rw [if_pos hv] at h
        rcases hrc : runCases model genIds a t numCases st with ⟨st1, e1⟩
        rw [hrc] at h
        cases e1 with
        | none =>
            replace h : runTypes model genIds a numCases ts st1 = (st', none) := h
            have h1 := runCases_ok_length model genIds a t numCases st st1 hrc
            have h2 := runTypes_ok_length model genIds a numCases ts st1 st' h
            rw [List.length_cons, Nat.succ_mul]
            omega
        | some e =>
            replace h : ((st1, some e) : RunState × Option String) = (st', none) := h
            exact Option.noConfusion (congrArg Prod.snd h)
      · rw [if_neg hv] at h
        exact Option.noConfusion (congrArg Prod.snd h)
/-- C1 (amended): the batch is all-or-nothing.  When
`generate_test_cases` returns normally it returns exactly
`len(test_types) * num_cases` cases — and (counterexample above) when any
single unit fails, the exception escapes the loop and the caller gets no
cases at all.  There is no log-and-continue path. -/
theorem c1_amended_all_or_nothing (model : Nat → Except String String)
    (genIds : Nat → String) (apiName : String) (testTypes : List String)
    (numCases : Nat) (out : List TestCaseM)
    (h : batchResult model genIds apiName testTypes numCases = Except.ok out) :
    out.length = testTypes.length * numCases := by
  unfold batchResult generate_test_cases at h
  rcases hr : runTypes model genIds apiName numCases testTypes initRunState with ⟨st, e⟩
  rw [hr] at h
  cases e with
  | none =>
      simp only [Except.ok.injEq] at h
      subst h
      have h1 := runTypes_ok_length model genIds apiName numCases testTypes
        initRunState st hr
      simpa [initRunState] using h1
  | some e => exact Except.noConfusion h

set_option maxRecDepth 100000 in
/-- C1 witness: a batch where every invocation succeeds returns normally with
`1 * 2` cases, instantiating the all-or-nothing theorem. -/
theorem c1_amended_all_or_nothing_witness :
    ∃ out, batchResult (fun _ => Except.ok fullResp) (fun _ => "u") "api"
        ["functional"] 2 = Except.ok out
      ∧ out.length = ["functional"].length * 2 := by
  have h : batchResult (fun _ => Except.ok fullResp) (fun _ => "u") "api"
      ["functional"] 2
      = Except.ok [⟨"1", "n", "d", "functional", .obj [], .obj [],
                    some [], some [], [], none, none⟩,
                   ⟨"1", "n", "d", "functional", .obj [], .obj [],
                    some [], some [], [], none, none⟩] := by rfl
  exact ⟨_, h, c1_amended_all_or_nothing _ _ "api" ["functional"] 2 _ h⟩

/-! ## C10: the similarity store is never queried during a batch -/

/-- Appending the context of the next invocation preserves the shape
invariant: every stored context is the image of the prefix of the cases
produced before it. -/
theorem ctx_formula_snoc (produced extra : List TestCaseM)
    (ctxs : List (List Json))
    (hlen : ctxs.length = produced.length)
    (hf : ctxs = (List.range ctxs.length).map
        (fun i => (produced.take i).map TestCaseM.toDict)) :
    ctxs ++ [produced.map TestCaseM.toDict]
      = (List.range (ctxs ++ [produced.map TestCaseM.toDict]).length).map
          (fun i => ((produced ++ extra).take i).map TestCaseM.toDict) := by
  have hlen2 : (ctxs ++ [produced.map TestCaseM.toDict]).length
      = ctxs.length + 1 := by simp
  rw [hlen2, List.range_succ, List.map_append]
  congr 1
  · conv_lhs => rw [hf]
    apply List.map_congr_left
    intro i hi
    have hi2 : i < ctxs.length := List.mem_range.mp hi
    rw [List.take_append_of_le_length (by omega)]
  · simp only [List.map_cons, List.map_nil]
    rw [hlen, List.take_left]

/-- The inner batch loop never queries the store and keeps the context-shape
invariant: every `similar_cases` list it passes is the list of cases produced
earlier in the same batch. -/
theorem runCases_ctx_inv (model : Nat → Except String String)
    (genIds : Nat → String) (a t : String) :
    ∀ (n : Nat) (st st' : RunState) (e : Option String),
      runCases model genIds a t n st = (st', e) →
      st.queries = 0 →
      st.contexts.length = st.produced.length →
      st.contexts = (List.range st.contexts.length).map
          (fun i => (st.produced.take i).map TestCaseM.toDict) →
      st'.queries = 0
      ∧ (e = none → st'.contexts.length = st'.produced.length)
      ∧ st'.contexts = (List.range st'.contexts.length).map
          (fun i => (st'.produced.take i).map TestCaseM.toDict)
  | 0, st, st', e, h, hq, hlen, hf => by
      simp only [runCases, Prod.mk.injEq] at h
      rw [← h.1]
      exact ⟨hq, fun _ => hlen, hf⟩
  | n + 1, st, st', e, h, hq, hlen, hf => by
      simp only [runCases] at h
      have hq2 : (generate_test_case (model st.k) (genIds st.k) a t
          (some (st.produced.map TestCaseM.toDict))).2 = 0 := rfl
      rcases hgen : generate_test_case (model st.k) (genIds st.k) a t
          (some (st.produced.map TestCaseM.toDict)) with ⟨res, q⟩
      rw [hgen] at hq2
      rw [hgen] at h
      rcases res with er | ⟨tc, d⟩
      case mk.error =>
        replace h : (({ st with
              k := st.k + 1
              contexts := st.contexts ++ [st.produced.map TestCaseM.toDict]
              queries := st.queries + q } : RunState), some er) = (st', e) := h
        rw [Prod.mk.injEq] at h
        rw [← h.1, ← h.2]
        have hq0 : q = 0 := hq2
        refine ⟨by simp [hq, hq0], fun hc => Option.noConfusion hc, ?_⟩
        simpa using ctx_formula_snoc st.produced [] st.contexts hlen hf
      case mk.ok.mk =>
        replace h : runCases model genIds a t n
            { k := st.k + 1, produced := st.produced ++ [tc],
              ragDocs := st.ragDocs ++ [d],
              contexts := st.contexts ++ [st.produced.map TestCaseM.toDict],
              queries := st.queries + q } = (st', e) := h
        have hq0 : q = 0 := hq2
        apply runCases_ctx_inv model genIds a t n _ st' e h
        · simp [hq, hq0]
        · simp [hlen]
        · exact ctx_formula_snoc st.produced [tc] st.contexts hlen hf

/-- The outer batch loop preserves the no-queries and context-shape
invariants across test types. -/
theorem runTypes_ctx_inv (model : Nat → Except String String)
    (genIds : Nat → String) (a : String) (numCases : Nat) :
    ∀ (ts : List String) (st st' : RunState) (e : Option String),
      runTypes model genIds a numCases ts st = (st', e) →
      st.queries = 0 →
      st.contexts.length = st.produced.length →
      st.contexts = (List.range st.contexts.length).map
          (fun i => (st.produced.take i).map TestCaseM.toDict) →
      st'.queries = 0
      ∧ (e = none → st'.contexts.length = st'.produced.length)
      ∧ st'.contexts = (List.range st'.contexts.length).map
          (fun i => (st'.produced.take i).map TestCaseM.toDict)
  | [], st, st', e, h, hq, hlen, hf => by
      simp only [runTypes, Prod.mk.injEq] at h
      rw [← h.1, ← h.2]
      exact ⟨hq, fun _ => hlen, hf⟩
  | t :: ts, st, st', e, h, hq, hlen, hf => by
      simp only [runTypes] at h
      by_cases hv : (validTestTypes.any fun x => decide (x = t)) = true
      · rw [if_pos hv] at h
        rcases hrc : runCases model genIds a t numCases st with ⟨st1, e1⟩
        rw [hrc] at h
        obtain ⟨hq1, hl1, hf1⟩ :=
          runCases_ctx_inv model genIds a t numCases st st1 e1 hrc hq hlen hf
        cases e1 with
        | none =>
            replace h : runTypes model genIds a numCases ts st1 = (st', e) := h
            exact runTypes_ctx_inv model genIds a numCases ts st1 st' e h
              hq1 (hl1 rfl) hf1
        | some e2 =>
            replace h : ((st1, some e2) : RunState × Option String) = (st', e) := h
            rw [Prod.mk.injEq] at h
            rw [← h.1, ← h.2]
            exact ⟨hq1, fun hc => Option.noConfusion hc, hf1⟩
      · rw [if_neg hv] at h
        rw [Prod.mk.injEq] at h
        rw [← h.1, ← h.2]
        exact ⟨hq, fun hc => Option.noConfusion hc, hf⟩

/-- C10: during a batch run the similarity store is never queried — the
context handed to the i-th invocation is exactly the list of cases generated
earlier in the same batch (empty for the first) — while a standalone
`_generate_test_case` call with `similar_cases=None` queries the store exactly
once. -/
theorem c10_no_store_queries :
    (∀ (model : Nat → Except String String) (genIds : Nat → String)
        (apiName : String) (testTypes : List String) (numCases : Nat)
        (st : RunState) (e : Option String),
        generate_test_cases model genIds apiName testTypes numCases = (st, e) →
        st.queries = 0
        ∧ st.contexts = (List.range st.contexts.length).map
            (fun i => (st.produced.take i).map TestCaseM.toDict))
    ∧ ∀ (resp : Except String String) (genId apiName testType : String),
        (generate_test_case resp genId apiName testType none).2 = 1 := by
  constructor
  · intro model genIds apiName testTypes numCases st e h
    unfold generate_test_cases at h
    obtain ⟨hq, _, hf⟩ := runTypes_ctx_inv model genIds apiName numCases testTypes
      initRunState st e h rfl rfl rfl
    exact ⟨hq, hf⟩
  · intro resp genId apiName testType
    rfl

/-! ## C6 and C5: the rule-entry invariants -/

/-- The per-entry rule invariant the spec claims for validated outputs: a
matchType inside the closed set, `dataPath` and `columns` present, and an
`index` whenever the matchType requires one. -/
def ruleEntryOk (e : Json) : Bool :=
  (match e.objGet "matchType" with
   | some v => validMatchTypes.any (fun m => m = v)
   | none => false)
  && e.hasKey "dataPath"
  && e.hasKey "columns"
  && (!(match e.objGet "matchType" with
        | some v => indexMatchTypes.any (fun m => m = v)
        | none => false) || e.hasKey "index")

/-- The rule-payload invariant: a `rules` key holding an array all of whose
entries satisfy the entry invariant. -/
def rulePayloadOk (v : Json) : Bool :=
  match v.objGet "rules" with
  | some (.arr es) => es.all ruleEntryOk
  | _ => false

/-- A successful lookup comes from an element of the association list. -/
theorem lookupKey_mem (fs : List (String × Json)) (k : String) (v : Json)
    (h : lookupKey fs k = some v) : (k, v) ∈ fs := by
  induction fs with
  | nil => simp [lookupKey] at h
  | cons p rest ih =>
      obtain ⟨k0, w0⟩ := p
      by_cases hk : k0 = k
      · subst hk
        simp only [lookupKey, eq_self_iff_true, if_true, Option.some.injEq] at h
        subst h
        exact List.mem_cons_self _ _
      · simp only [lookupKey, if_neg hk] at h
        exact List.mem_cons_of_mem _ (ih h)

/-- Values of a well-formed object are well-formed. -/
theorem wf_objGet (fs : List (String × Json)) (k : String) (v : Json)
    (hwf : Json.wf (.obj fs) = true) (h : Json.objGet (.obj fs) k = some v) :
    v.wf = true := by
  have hmem : (k, v) ∈ fs := lookupKey_mem fs k v h
  simp only [Json.wf, Bool.and_eq_true, wfFields_iff] at hwf
  exact hwf.2 (k, v) hmem

/-- Items of a well-formed array are well-formed. -/
theorem wf_arr_mem (xs : List Json) (x : Json) (hwf : Json.wf (.arr xs) = true)
    (h : x ∈ xs) : x.wf = true := by
  simp only [Json.wf, wfItems_iff] at hwf
  exact hwf x h

/-- Step 1 of the per-entry fix-up (lines 272-275): after the matchType patch
the entry is an object whose matchType is in the closed set; every other key
is untouched. -/
theorem step_matchType (fs : List (String × Json)) :
    ∃ gs, (if (match (Json.obj fs).objGet "matchType" with
               | none => true
               | some v => !(validMatchTypes.any (fun m => m = v))) = true
           then (Json.obj fs).objSet "matchType" (.str "equal")
           else Json.obj fs) = Json.obj gs
      ∧ (∃ vm, lookupKey gs "matchType" = some vm ∧ vm ∈ validMatchTypes)
      ∧ (∀ k, k ≠ "matchType" → lookupKey gs k = lookupKey fs k)
      ∧ (∀ k, k ≠ "matchType" → (k ∈ gs.map Prod.fst ↔ k ∈ fs.map Prod.fst))
      ∧ (Json.wf (Json.obj fs) = true → Json.wf (Json.obj gs) = true) := by
  rcases hmt : lookupKey fs "matchType" with _ | vm
  · have hcond : (match (Json.obj fs).objGet "matchType" with
               | none => true
               | some v => !(validMatchTypes.any (fun m => m = v))) = true := by
      simp only [Json.objGet, hmt]
    refine ⟨insertKey fs "matchType" (Json.str "equal"),
      by rw [if_pos hcond]; rfl, ?_, ?_, ?_, ?_⟩
    · exact ⟨Json.str "equal", lookupKey_insertKey_same fs _ _, by decide⟩
    · intro k hk; exact lookupKey_insertKey_other fs _ k _ hk
    · intro k hk; rw [mem_keys_insertKey]
      exact ⟨fun h => h.elim (fun h => h) (fun h => absurd h hk), Or.inl⟩
    · intro hwf; exact objSet_wf hwf rfl
  · by_cases hval : vm ∈ validMatchTypes
    · have hany : validMatchTypes.any (fun m => m = vm) = true := by
        rw [List.any_eq_true]
        exact ⟨vm, hval, by simp⟩
      have hcond : ¬ ((match (Json.obj fs).objGet "matchType" with
               | none => true
               | some v => !(validMatchTypes.any (fun m => m = v))) = true) := by
        simp only [Json.objGet, hmt]
        rw [hany]
        simp
      refine ⟨fs, by rw [if_neg hcond], ⟨vm, hmt, hval⟩,
        fun k _ => rfl, fun k _ => Iff.rfl, fun h => h⟩
    · have hany : validMatchTypes.any (fun m => m = vm) = false := by
        cases h2 : validMatchTypes.any (fun m => m = vm) with
        | false => rfl
        | true =>
            exfalso
            obtain ⟨x, hx, hpx⟩ := List.any_eq_true.mp h2
            exact hval (by rwa [of_decide_eq_true hpx] at hx)
      have hcond : (match (Json.obj fs).objGet "matchType" with
               | none => true
               | some v => !(validMatchTypes.any (fun m => m = v))) = true := by
        simp only [Json.objGet, hmt]
        rw [hany]
        rfl
      refine ⟨insertKey fs "matchType" (Json.str "equal"),
        by rw [if_pos hcond]; rfl, ?_, ?_, ?_, ?_⟩
      · exact ⟨Json.str "equal", lookupKey_insertKey_same fs _ _, by decide⟩
      · intro k hk; exact lookupKey_insertKey_other fs _ k _ hk
      · intro k hk; rw [mem_keys_insertKey]
        exact ⟨fun h => h.elim (fun h => h) (fun h => absurd h hk), Or.inl⟩
      · intro hwf; exact objSet_wf hwf rfl

/-- Step 2 of the per-entry fix-up (lines 276-279): after the index patch, an
index-requiring matchType implies an `index` key; other keys untouched. -/
theorem step_index (gs : List (String × Json)) :
    ∃ hs, (if (match (Json.obj gs).objGet "matchType" with
               | some v => indexMatchTypes.any (fun m => m = v)
               | none => false) = true ∧ (Json.obj gs).hasKey "index" = false
           then (Json.obj gs).objSet "index" (.str "1")
           else Json.obj gs) = Json.obj hs
      ∧ ((match lookupKey gs "matchType" with
          | some v => indexMatchTypes.any (fun m => m = v)
          | none => false) = true → "index" ∈ hs.map Prod.fst)
      ∧ (∀ k, k ≠ "index" → lookupKey hs k = lookupKey gs k)
      ∧ (∀ k, k ≠ "index" → (k ∈ hs.map Prod.fst ↔ k ∈ gs.map Prod.fst))
      ∧ (Json.wf (Json.obj gs) = true → Json.wf (Json.obj hs) = true) := by
  by_cases hcond : (match (Json.obj gs).objGet "matchType" with
               | some v => indexMatchTypes.any (fun m => m = v)
               | none => false) = true ∧ (Json.obj gs).hasKey "index" = false
  · refine ⟨insertKey gs "index" (Json.str "1"),
      by rw [if_pos hcond]; rfl, ?_, ?_, ?_, ?_⟩
    · intro _
      rw [mem_keys_insertKey]; exact Or.inr rfl
    · intro k hk; exact lookupKey_insertKey_other gs _ k _ hk
    · intro k hk; rw [mem_keys_insertKey]
      exact ⟨fun h => h.elim (fun h => h) (fun h => absurd h hk), Or.inl⟩
    · intro hwf; exact objSet_wf hwf rfl
  · refine ⟨gs, by rw [if_neg hcond], ?_,
      fun k _ => rfl, fun k _ => Iff.rfl, fun h => h⟩
    intro hmt
    rw [not_and] at hcond
    have hB := hcond hmt
    have hidx : (Json.obj gs).hasKey "index" = true := by
      cases hx : (Json.obj gs).hasKey "index" with
      | true => rfl
      | false => exact absurd hx hB
    exact (hasKey_any gs "index").mp hidx

/-- Steps 3 and 4 of the per-entry fix-up (lines 280-285): default a key when
it is absent; other keys untouched. -/
theorem step_ensureKey (gs : List (String × Json)) (k : String) (v : Json)
    (hvwf : v.wf = true) :
    ∃ hs, (if (Json.obj gs).hasKey k = false
           then (Json.obj gs).objSet k v else Json.obj gs) = Json.obj hs
      ∧ k ∈ hs.map Prod.fst
      ∧ (∀ k2, k2 ≠ k → lookupKey hs k2 = lookupKey gs k2)
      ∧ (∀ k2, k2 ≠ k → (k2 ∈ hs.map Prod.fst ↔ k2 ∈ gs.map Prod.fst))
      ∧ (Json.wf (Json.obj gs) = true → Json.wf (Json.obj hs) = true)
      ∧ ((Json.obj gs).hasKey k = true → lookupKey hs k = lookupKey gs k) := by
  by_cases hcond : (Json.obj gs).hasKey k = false
  · refine ⟨insertKey gs k v, by rw [if_pos hcond]; rfl, ?_, ?_, ?_, ?_, ?_⟩
    · rw [mem_keys_insertKey]; exact Or.inr rfl
    · intro k2 hk; exact lookupKey_insertKey_other gs _ k2 _ hk
    · intro k2 hk; rw [mem_keys_insertKey]
      exact ⟨fun h => h.elim (fun h => h) (fun h => absurd h hk), Or.inl⟩
    · intro hwf; exact objSet_wf hwf hvwf
    · intro hk2
      rw [hcond] at hk2
      exact Bool.noConfusion hk2
  · refine ⟨gs, by rw [if_neg hcond], ?_,
      fun k2 _ => rfl, fun k2 _ => Iff.rfl, fun h => h, fun _ => rfl⟩
    have hk : (Json.obj gs).hasKey k = true := by
      cases hx : (Json.obj gs).hasKey k with
      | true => rfl
      | false => exact absurd hx hcond
    exact (hasKey_any gs k).mp hk

/-- Every patched rule entry satisfies the entry invariant, and patching
preserves well-formedness. -/
theorem fixRuleEntry_props (e : Json) :
    ruleEntryOk (fixRuleEntry e) = true
    ∧ (e.wf = true → (fixRuleEntry e).wf = true) := by
  cases e with
  | obj fs =>
      simp only [fixRuleEntry]
      obtain ⟨gs1, he1, ⟨vm, hvm1, hval⟩, hlk1, hmem1, hwf1⟩ := step_matchType fs
      rw [he1]
      obtain ⟨gs2, he2, hmt2, hlk2, hmem2, hwf2⟩ := step_index gs1
      rw [he2]
      obtain ⟨gs3, he3, hk3, hlk3, hmem3, hwf3, _⟩ :=
        step_ensureKey gs2 "dataPath" (Json.str "result") rfl
      rw [he3]
      obtain ⟨gs4, he4, hk4, hlk4, hmem4, hwf4, _⟩ :=
        step_ensureKey gs3 "columns" (Json.obj [("result", Json.num 0)]) rfl
      rw [he4]
      have hvm2 : lookupKey gs2 "matchType" = some vm := by
        rw [hlk2 _ (by decide)]; exact hvm1
      have hvm4 : lookupKey gs4 "matchType" = some vm := by
        rw [hlk4 _ (by decide), hlk3 _ (by decide)]; exact hvm2
      constructor
      · simp only [ruleEntryOk, Json.objGet, hvm4, Bool.and_eq_true]
        refine ⟨⟨⟨?_, ?_⟩, ?_⟩, ?_⟩
        · rw [List.any_eq_true]
          exact ⟨vm, hval, by simp⟩
        · rw [hasKey_any]
          exact (hmem4 _ (by decide)).mpr hk3
        · rw [hasKey_any]
          exact hk4
        · by_cases hidx : indexMatchTypes.any (fun m => m = vm) = true
          · have hidxmem : "index" ∈ gs2.map Prod.fst := by
              apply hmt2
              rw [hvm1]
              exact hidx
            rw [Bool.or_eq_true]
            right
            rw [hasKey_any]
            exact (hmem4 _ (by decide)).mpr ((hmem3 _ (by decide)).mpr hidxmem)
          · have hx : indexMatchTypes.any (fun m => m = vm) = false := by
              cases h2 : indexMatchTypes.any (fun m => m = vm) with
              | false => rfl
              | true => exact absurd h2 hidx
            rw [hx]
            rfl
      · intro hwf
        exact hwf4 (hwf3 (hwf2 (hwf1 hwf)))
  | null => exact ⟨rfl, fun _ => rfl⟩
  | bool b => exact ⟨rfl, fun _ => rfl⟩
  | num n => exact ⟨rfl, fun _ => rfl⟩
  | str s => exact ⟨rfl, fun _ => rfl⟩
  | arr xs => exact ⟨rfl, fun _ => rfl⟩

/-- Shape of a successful `_sanitize_test_case` result: an object whose
`rule` is a string (or absent when the candidate had none, which cannot
happen after the required-field check on objects), and whose `param` is the
serialization of any structured `param` the candidate carried. -/
theorem sanitize_ok_shape (cand : Json) (a t : String) (out : Json)
    (h : sanitize_test_case cand a t = Except.ok out) :
    (∃ gs, out = Json.obj gs)
    ∧ (out.objGet "rule" = none ∨ ∃ s, out.objGet "rule" = some (Json.str s))
    ∧ (∀ p, cand.objGet "param" = some p → (∀ s2, p ≠ Json.str s2) →
        out.objGet "param" = some (Json.str (Json.dumps p))) := by
  unfold sanitize_test_case at h
  rcases hok : checkRequired cand requiredFields with e | u
  · rw [hok, except_bind_error] at h
    exact Except.noConfusion h
  · rw [hok, except_bind_ok] at h
    cases cand with
    | null => simp at h
    | bool b => simp at h
    | num n => simp at h
    | str s => simp at h
    | arr xs => simp at h
    | obj fs =>
        simp only [Except.ok.injEq] at h
        subst h
        have hlink : ∀ p, (Json.obj fs).objGet "param" = some p →
            ((((Json.obj fs).objSet "api_name" (Json.str a)).objSet
              "type" (Json.str t)).objGet "param") = some p := by
          intro p hp
          simp only [Json.objSet, Json.objGet]
          rw [lookupKey_insertKey_other _ "type" "param" _ (by decide),
              lookupKey_insertKey_other _ "api_name" "param" _ (by decide)]
          exact hp
        split
        case h_1 xr sr heqr =>
          split
          case h_1 xp sp heqp =>
            refine ⟨⟨_, rfl⟩, ?_, ?_⟩
            · right
              refine ⟨sanitize_json_string sr, ?_⟩
              simp only [Json.objSet, Json.objGet]
              rw [lookupKey_insertKey_other _ "headers" "rule" _ (by decide),
                  lookupKey_insertKey_same]
            · intro p hp hp2
              rw [hlink p hp] at heqp
              exact absurd (Option.some.inj heqp) (hp2 sp)
          case h_2 x0 vp hnep heqp =>
            refine ⟨⟨_, rfl⟩, ?_, ?_⟩
            · right
              refine ⟨sanitize_json_string sr, ?_⟩
              simp only [Json.objSet, Json.objGet]
              rw [lookupKey_insertKey_other _ "headers" "rule" _ (by decide),
                  lookupKey_insertKey_same]
            · intro p hp hp2
              rw [hlink p hp] at heqp
              have hv : vp = p := (Option.some.inj heqp).symm
              subst hv
              simp only [Json.objSet, Json.objGet]
              rw [lookupKey_insertKey_other _ "headers" "param" _ (by decide),
                  lookupKey_insertKey_other _ "rule" "param" _ (by decide),
                  lookupKey_insertKey_same]
          case h_3 xp heqp =>
            refine ⟨⟨_, rfl⟩, ?_, ?_⟩
            · right
              refine ⟨sanitize_json_string sr, ?_⟩
              simp only [Json.objSet, Json.objGet]
              rw [lookupKey_insertKey_other _ "headers" "rule" _ (by decide),
                  lookupKey_insertKey_same]
            · intro p hp hp2
              rw [hlink p hp] at heqp
              exact Option.noConfusion heqp
        case h_2 xr vr hner heqr =>
          split
          case h_1 xp sp heqp =>
            refine ⟨⟨_, rfl⟩, ?_, ?_⟩
            · right
              refine ⟨Json.dumps vr, ?_⟩
              simp only [Json.objSet, Json.objGet]
              rw [lookupKey_insertKey_other _ "headers" "rule" _ (by decide),
                  lookupKey_insertKey_same]
            · intro p hp hp2
              rw [hlink p hp] at heqp
              exact absurd (Option.some.inj heqp) (hp2 sp)
          case h_2 x0 vp hnep heqp =>
            refine ⟨⟨_, rfl⟩, ?_, ?_⟩
            · right
              refine ⟨Json.dumps vr, ?_⟩
              simp only [Json.objSet, Json.objGet]
              rw [lookupKey_insertKey_other _ "headers" "rule" _ (by decide),
                  lookupKey_insertKey_same]
            · intro p hp hp2
              rw [hlink p hp] at heqp
              have hv : vp = p := (Option.some.inj heqp).symm
              subst hv
              simp only [Json.objSet, Json.objGet]
              rw [lookupKey_insertKey_other _ "headers" "param" _ (by decide),
                  lookupKey_insertKey_other _ "rule" "param" _ (by decide),
                  lookupKey_insertKey_same]
          case h_3 xp heqp =>
            refine ⟨⟨_, rfl⟩, ?_, ?_⟩
            · right
              refine ⟨Json.dumps vr, ?_⟩
              simp only [Json.objSet, Json.objGet]
              rw [lookupKey_insertKey_other _ "headers" "rule" _ (by decide),
                  lookupKey_insertKey_same]
            · intro p hp hp2
              rw [hlink p hp] at heqp
              exact Option.noConfusion heqp
        case h_3 xr heqr =>
          split
          case h_1 xp sp heqp =>
            refine ⟨⟨_, rfl⟩, ?_, ?_⟩
            · left
              simp only [heqp] at heqr
              simp only [Json.objSet, Json.objGet] at heqr ⊢
              rw [lookupKey_insertKey_other _ "headers" "rule" _ (by decide)]
              exact heqr
            · intro p hp hp2
              rw [hlink p hp] at heqp
              exact absurd (Option.some.inj heqp) (hp2 sp)
          case h_2 x0 vp hnep heqp =>
            refine ⟨⟨_, rfl⟩, ?_, ?_⟩
            · left
              simp only [heqp] at heqr
              simp only [Json.objSet, Json.objGet] at heqr ⊢
              rw [lookupKey_insertKey_other _ "headers" "rule" _ (by decide)]
              exact heqr
            · intro p hp hp2
              rw [hlink p hp] at heqp
              have hv : vp = p := (Option.some.inj heqp).symm
              subst hv
              simp only [Json.objSet, Json.objGet]
              rw [lookupKey_insertKey_other _ "headers" "param" _ (by decide),
                  lookupKey_insertKey_same]
          case h_3 xp heqp =>
            refine ⟨⟨_, rfl⟩, ?_, ?_⟩
            · left
              simp only [heqp] at heqr
              simp only [Json.objSet, Json.objGet] at heqr ⊢
              rw [lookupKey_insertKey_other _ "headers" "rule" _ (by decide)]
              exact heqr
            · intro p hp hp2
              rw [hlink p hp] at heqp
              exact Option.noConfusion heqp

/-- The default-payload leaf of rule validation: the stored payload is the
default rules object with its single (re-patched) default entry. -/
theorem vr_default_case (tc out : Json)
    (hout : out = tc.objSet "rule" (Json.str (Json.dumps (defaultRules.objSet "rules"
      (Json.arr ([defaultRule].map fixRuleEntry)))))) :
    ∃ (g1 : List (String × Json)) (entries : List Json),
      Json.wf (Json.obj g1) = true
      ∧ (Json.obj g1).objGet "rules" = some (Json.arr entries)
      ∧ (∀ x ∈ entries, x.wf = true)
      ∧ out = tc.objSet "rule"
          (Json.str (Json.dumps ((Json.obj g1).objSet "rules"
            (Json.arr (entries.map fixRuleEntry))))) := by
  subst hout
  refine ⟨[("rules", Json.arr [defaultRule])], [defaultRule], rfl, rfl, ?_, rfl⟩
  intro x hx
  rw [List.mem_singleton] at hx
  subst hx
  rfl

/-- Analysis of a successful rule validation on a candidate whose `rule` is a
string: the stored payload re-serializes an object whose `rules` array is the
entry-wise patch of a well-formed array. -/
theorem validate_rules_ok_str (tc : Json) (s : String) (out : Json)
    (hrule : tc.objGet "rule" = some (Json.str s))
    (h : validate_rules tc = Except.ok out) :
    ∃ (g1 : List (String × Json)) (entries : List Json),
      Json.wf (Json.obj g1) = true
      ∧ (Json.obj g1).objGet "rules" = some (Json.arr entries)
      ∧ (∀ x ∈ entries, x.wf = true)
      ∧ out = tc.objSet "rule"
          (Json.str (Json.dumps ((Json.obj g1).objSet "rules"
            (Json.arr (entries.map fixRuleEntry))))) := by
  unfold validate_rules at h
  simp only [hrule] at h
  rcases hp : Json.parse s with _ | v
  · rw [hp] at h
    simp only [except_bind_ok, except_bind_error, defaultRules, defaultRule,
            Json.objGet, lookupKey, if_true, if_false, eq_self_iff_true,
            Except.ok.injEq] at h
    exact vr_default_case tc out h.symm
  · rw [hp] at h
    cases v with
    | obj hs =>
        simp only [except_bind_ok] at h
        rcases hre : (Json.obj hs).objGet "rules" with _ | w
        · rw [hre] at h
          simp only [except_bind_ok, except_bind_error, defaultRules, defaultRule,
            Json.objGet, lookupKey, if_true, if_false, eq_self_iff_true,
            Except.ok.injEq] at h
          exact vr_default_case tc out h.symm
        · rw [hre] at h
          cases w with
          | arr xs =>
              simp only [except_bind_ok, hre, Except.ok.injEq] at h
              have hwf : Json.wf (Json.obj hs) = true := Json.parse_wf s _ hp
              refine ⟨hs, xs, hwf, hre, ?_, h.symm⟩
              intro x hx
              exact wf_arr_mem xs x (wf_objGet hs "rules" _ hwf hre) hx
          | null =>
              simp only [except_bind_ok, except_bind_error, defaultRules, defaultRule,
            Json.objGet, lookupKey, if_true, if_false, eq_self_iff_true,
            Except.ok.injEq] at h
              exact vr_default_case tc out h.symm
          | bool b =>
              simp only [except_bind_ok, except_bind_error, defaultRules, defaultRule,
            Json.objGet, lookupKey, if_true, if_false, eq_self_iff_true,
            Except.ok.injEq] at h
              exact vr_default_case tc out h.symm
          | num n =>
              simp only [except_bind_ok, except_bind_error, defaultRules, defaultRule,
            Json.objGet, lookupKey, if_true, if_false, eq_self_iff_true,
            Except.ok.injEq] at h
              exact vr_default_case tc out h.symm
          | str s2 =>
              simp only [except_bind_ok, except_bind_error, defaultRules, defaultRule,
            Json.objGet, lookupKey, if_true, if_false, eq_self_iff_true,
            Except.ok.injEq] at h
              exact vr_default_case tc out h.symm
          | obj g2 =>
              simp only [except_bind_ok, except_bind_error, defaultRules, defaultRule,
            Json.objGet, lookupKey, if_true, if_false, eq_self_iff_true,
            Except.ok.injEq] at h
              exact vr_default_case tc out h.symm
    | arr xs =>
        simp only [except_bind_ok] at h
        by_cases hc : (xs.any fun x => decide (x = Json.str "rules")) = true
        · rw [if_pos hc] at h
          simp only [except_bind_error] at h
          exact Except.noConfusion h
        · rw [if_neg hc] at h
          simp only [except_bind_ok, except_bind_error, defaultRules, defaultRule,
            Json.objGet, lookupKey, if_true, if_false, eq_self_iff_true,
            Except.ok.injEq] at h
          exact vr_default_case tc out h.symm
    | str s2 =>
        simp only [except_bind_ok] at h
        by_cases hc : strContainsSub s2 "rules" = true
        · rw [if_pos hc] at h
          simp only [except_bind_error] at h
          exact Except.noConfusion h
        · rw [if_neg hc] at h
          simp only [except_bind_ok, except_bind_error, defaultRules, defaultRule,
            Json.objGet, lookupKey, if_true, if_false, eq_self_iff_true,
            Except.ok.injEq] at h
          exact vr_default_case tc out h.symm
    | null =>
        simp only [except_bind_ok, except_bind_error] at h
        exact Except.noConfusion h
    | bool b =>
        simp only [except_bind_ok, except_bind_error] at h
        exact Except.noConfusion h
    | num n =>
        simp only [except_bind_ok, except_bind_error] at h
        exact Except.noConfusion h

/-- Well-formedness of any successfully looked-up value. -/
theorem wf_objGet_any (cand : Json) (k : String) (p : Json)
    (hwf : cand.wf = true) (h : cand.objGet k = some p) : p.wf = true := by
  cases cand with
  | obj cs => exact wf_objGet cs k p hwf h
  | null => exact Option.noConfusion h
  | bool b => exact Option.noConfusion h
  | num n => exact Option.noConfusion h
  | str s => exact Option.noConfusion h
  | arr xs => exact Option.noConfusion h

/-- C5 (amended): for every candidate the deterministic validation stage
accepts, the stored `rule` field is a string that parses back to a payload
whose `rules` key holds an array (possibly empty) of entries each satisfying
the entry invariant — valid matchType, `dataPath` and `columns` present, an
`index` for the index-requiring matchTypes — and any structured (non-string)
`param` the candidate carried is stored as a string that parses back to it.
(Unlike the original claim, `rules` may be empty, and a string `param` is
stored as given, parseable or not.) -/
theorem c5_amended_rule_invariants (cand : Json) (apiName testType : String)
    (out : Json) (hwf : cand.wf = true)
    (h : processCase cand apiName testType = Except.ok out) :
    (∃ rs rv, out.objGet "rule" = some (Json.str rs)
       ∧ Json.parse rs = some rv ∧ rulePayloadOk rv = true)
    ∧ (∀ p, cand.objGet "param" = some p → (∀ s, p ≠ Json.str s) →
        ∃ ps, out.objGet "param" = some (Json.str ps) ∧ Json.parse ps = some p) := by
  unfold processCase at h
  rcases hs0 : sanitize_test_case cand apiName testType with e | tc
  · rw [hs0, except_bind_error] at h
    exact Except.noConfusion h
  · rw [hs0, except_bind_ok] at h
    obtain ⟨⟨gs, rfl⟩, hrule, hparam⟩ := sanitize_ok_shape cand apiName testType _ hs0
    rcases hrule with hnone | ⟨s, hsome⟩
    · exfalso
      unfold validate_rules at h
      simp only [hnone, except_bind_error] at h
      exact Except.noConfusion h
    · obtain ⟨g1, entries, hg1wf, hre, hewf, hout⟩ :=
        validate_rules_ok_str _ s out hsome h
      constructor
      · refine ⟨Json.dumps ((Json.obj g1).objSet "rules"
            (Json.arr (entries.map fixRuleEntry))),
          (Json.obj g1).objSet "rules" (Json.arr (entries.map fixRuleEntry)),
          ?_, ?_, ?_⟩
        · rw [hout]
          exact objGet_objSet_same gs _ _
        · apply Json.parse_dumps
          apply objSet_wf hg1wf
          show Json.wfItems (entries.map fixRuleEntry) = true
          rw [wfItems_iff]
          intro x hx
          obtain ⟨y, hy, rfl⟩ := List.mem_map.mp hx
          exact (fixRuleEntry_props y).2 (hewf y hy)
        · simp only [rulePayloadOk, objGet_objSet_same]
          rw [List.all_eq_true]
          intro x hx
          obtain ⟨y, hy, rfl⟩ := List.mem_map.mp hx
          exact (fixRuleEntry_props y).1
      · intro p hp hpstr
        refine ⟨Json.dumps p, ?_, ?_⟩
        · rw [hout, objGet_objSet_other gs "rule" "param" _ (by decide)]
          exact hparam p hp hpstr
        · exact Json.parse_dumps p (wf_objGet_any cand "param" p hwf hp)

/-- C5 counterexample: the pipeline validates a candidate whose `param` is
the unparseable string `oops(` and whose rule payload has an empty `rules`
array — refuting both the `json_parse(param)` clause and the non-emptiness of
`rules` in the original claim. -/
theorem c5_counterexample :
    processCase (Json.obj [("id", .str "1"), ("name", .str "n"),
        ("param", .str "oops("), ("headers", .obj []),
        ("rule", .obj [("rules", .arr [])])]) "api" "functional"
      = Except.ok (Json.obj [("id", .str "1"), ("name", .str "n"),
          ("param", .str "oops("), ("headers", contentTypeHeaders),
          ("rule", .str "\x7b\"rules\": []\x7d"),
          ("api_name", .str "api"), ("type", .str "functional")])
    ∧ Json.parse "oops(" = none := ⟨rfl, rfl⟩

set_option maxRecDepth 40000 in
/-- C5 witness: a well-formed candidate with a structured `param` and an
unparseable rule string is accepted, instantiating the amended theorem. -/
theorem c5_amended_rule_invariants_witness :
    (Json.obj [("id", Json.str "1"), ("name", Json.str "n"),
        ("param", Json.obj [("q", Json.num 3)]), ("headers", Json.obj []),
        ("rule", Json.str "not json")]).wf = true
    ∧ ((∃ rs rv, (Json.obj [("id", Json.str "1"), ("name", Json.str "n"),
          ("param", Json.str "\x7b\"q\": 3\x7d"),
          ("headers", contentTypeHeaders),
          ("rule", Json.str "\x7b\"rules\": [\x7b\"matchType\": \"equal\", \"dataPath\": \"result\", \"columns\": \x7b\"result\": 0\x7d\x7d]\x7d"),
          ("api_name", Json.str "api"), ("type", Json.str "functional")]).objGet "rule"
            = some (Json.str rs)
        ∧ Json.parse rs = some rv ∧ rulePayloadOk rv = true)
      ∧ (∀ p, (Json.obj [("id", Json.str "1"), ("name", Json.str "n"),
            ("param", Json.obj [("q", Json.num 3)]), ("headers", Json.obj []),
            ("rule", Json.str "not json")]).objGet "param" = some p →
          (∀ s, p ≠ Json.str s) →
          ∃ ps, (Json.obj [("id", Json.str "1"), ("name", Json.str "n"),
            ("param", Json.str "\x7b\"q\": 3\x7d"),
            ("headers", contentTypeHeaders),
            ("rule", Json.str "\x7b\"rules\": [\x7b\"matchType\": \"equal\", \"dataPath\": \"result\", \"columns\": \x7b\"result\": 0\x7d\x7d]\x7d"),
            ("api_name", Json.str "api"), ("type", Json.str "functional")]).objGet "param"
              = some (Json.str ps) ∧ Json.parse ps = some p)) :=
  ⟨rfl, c5_amended_rule_invariants
    (Json.obj [("id", Json.str "1"), ("name", Json.str "n"),
        ("param", Json.obj [("q", Json.num 3)]), ("headers", Json.obj []),
        ("rule", Json.str "not json")]) "api" "functional" _ rfl rfl⟩

/-- C6 counterexample: an entry violating the invariants (matchType `weird`,
outside the closed set) is patched field by field — its `dataPath` of `xyz`
and its `columns` survive, so the result is not the canonical default rule —
and a candidate whose `rule` is the number `5` makes the generation attempt
fail outright with a `TypeError` rather than being repaired. -/
theorem c6_counterexample :
    fixRuleEntry (Json.obj [("matchType", .str "weird"), ("dataPath", .str "xyz"),
        ("columns", .obj [("a", .num 1)])])
      = Json.obj [("matchType", .str "equal"), ("dataPath", .str "xyz"),
          ("columns", .obj [("a", .num 1)])]
    ∧ Json.obj [("matchType", .str "equal"), ("dataPath", .str "xyz"),
          ("columns", .obj [("a", .num 1)])] ≠ defaultRule
    ∧ processCase (Json.obj [("id", .str "1"), ("name", .str "n"),
        ("param", .str "\x7b\x7d"), ("headers", .obj []), ("rule", .num 5)])
        "api" "functional"
      = Except.error "TypeError: argument is not iterable" :=
  ⟨rfl, by decide, rfl⟩

/-- C6 (amended): rule entries are repaired per field, not wholesale — every
patched entry satisfies the invariants; an entry's valid `dataPath` survives
the patch; only non-dict entries are replaced by the canonical default rule —
and rule validation cannot fail when the rule string parses to a dict (or
fails to parse), while (counterexample above) a rule that is itself a number
aborts the generation attempt. -/
theorem c6_amended_per_field_repair :
    (∀ e : Json, ruleEntryOk (fixRuleEntry e) = true)
    ∧ (∀ fs : List (String × Json), (Json.obj fs).hasKey "dataPath" = true →
        (fixRuleEntry (Json.obj fs)).objGet "dataPath"
          = (Json.obj fs).objGet "dataPath")
    ∧ (∀ e : Json, (∀ fs, e ≠ Json.obj fs) → fixRuleEntry e = defaultRule)
    ∧ (∀ (gs : List (String × Json)) (s : String),
        (Json.obj gs).objGet "rule" = some (Json.str s) →
        (∀ v, Json.parse s = some v → ∃ hs, v = Json.obj hs) →
        (validate_rules (Json.obj gs)).isOk = true) := by
  refine ⟨fun e => (fixRuleEntry_props e).1, ?_, ?_, ?_⟩
  · intro fs hdp
    simp only [fixRuleEntry]
    obtain ⟨gs1, he1, _, hlk1, hmem1, _⟩ := step_matchType fs
    rw [he1]
    obtain ⟨gs2, he2, _, hlk2, hmem2, _⟩ := step_index gs1
    rw [he2]
    obtain ⟨gs3, he3, _, hlk3, hmem3, _, hkeep3⟩ :=
      step_ensureKey gs2 "dataPath" (Json.str "result") rfl
    rw [he3]
    obtain ⟨gs4, he4, _, hlk4, _, _, _⟩ :=
      step_ensureKey gs3 "columns" (Json.obj [("result", Json.num 0)]) rfl
    rw [he4]
    show lookupKey gs4 "dataPath" = lookupKey fs "dataPath"
    have hmem2d : "dataPath" ∈ gs2.map Prod.fst := by
      apply (hmem2 _ (by decide)).mpr
      apply (hmem1 _ (by decide)).mpr
      exact (hasKey_any fs "dataPath").mp hdp
    rw [hlk4 _ (by decide), hkeep3 ((hasKey_any gs2 "dataPath").mpr hmem2d),
        hlk2 _ (by decide), hlk1 _ (by decide)]
  · intro e he
    cases e with
    | obj fs => exact absurd rfl (he fs)
    | null => rfl
    | bool b => rfl
    | num n => rfl
    | str s => rfl
    | arr xs => rfl
  · intro gs s hrule hparse
    unfold validate_rules
    simp only [hrule]
    rcases hp : Json.parse s with _ | v
    · rfl
    · obtain ⟨hs, rfl⟩ := hparse v hp
      simp only [except_bind_ok]
      rcases hre : (Json.obj hs).objGet "rules" with _ | w
      · rfl
      · cases w with
        | arr xs =>
            simp only [except_bind_ok]
            rw [hre]
            rfl
        | null => rfl
        | bool b => rfl
        | num n => rfl
        | str s2 => rfl
        | obj g2 => rfl

/-! ## C8: when repair is a no-op -/

/-- A list whose head fails the predicate is kept by `dropWhile`. -/
theorem dropWhile_id_of_head {l : List Char} {c : Char} (hh : l.head? = some c)
    (hc : isWsC c = false) : l.dropWhile isWsC = l := by
  cases l with
  | nil => exact Option.noConfusion hh
  | cons x xs =>
      have hx : x = c := by
        rw [List.head?_cons, Option.some.injEq] at hh
        exact hh
      subst hx
      simp [List.dropWhile, hc]

/-- Members of `dropWhile` are members of the list. -/
theorem mem_of_mem_dropWhile {p : Char → Bool} :
    ∀ (l : List Char) (x : Char), x ∈ l.dropWhile p → x ∈ l
  | [], _, h => h
  | c :: rest, x, h => by
      by_cases hp : p c = true
      · rw [show (c :: rest).dropWhile p = rest.dropWhile p by
          simp [List.dropWhile, hp]] at h
        exact List.mem_cons_of_mem _ (mem_of_mem_dropWhile rest x h)
      · have hpc : p c = false := by
          cases hx : p c with
          | true => exact absurd hx hp
          | false => rfl
        rw [show (c :: rest).dropWhile p = c :: rest by
          simp [List.dropWhile, hpc]] at h
        exact h

/-- The comma/brace adjacency rewrites are the identity when the pattern
never occurs. -/
theorem subPairF_id (a b : Char) (rep : List Char) :
    ∀ (f : Nat) (l : List Char), trigPair a b l = false → l.length < f →
      subPairF a b rep f l = l
  | 0, _, _, hf => absurd hf (by omega)
  | _ + 1, [], _, _ => rfl
  | f + 1, c :: rest, ht, hf => by
      simp only [trigPair, Bool.or_eq_false_iff] at ht
      obtain ⟨hab, hrest⟩ := ht
      have hneg : ¬ (c = a ∧ (rest.dropWhile isWsC).head? = some b) := by
        rintro ⟨h1, h2⟩
        simp [h1, h2] at hab
      show (if c = a ∧ (rest.dropWhile isWsC).head? = some b
            then rep ++ subPairF a b rep f (rest.dropWhile isWsC).tail
            else c :: subPairF a b rep f rest) = c :: rest
      rw [if_neg hneg,
        subPairF_id a b rep f rest hrest (by simp at hf; omega)]

/-- The single-quote key rewrite is the identity on quote-free input. -/
theorem subSQKeyF_id :
    ∀ (f : Nat) (l : List Char), sqC ∉ l → l.length < f → subSQKeyF f l = l
  | 0, _, _, hf => absurd hf (by omega)
  | _ + 1, [], _, _ => rfl
  | f + 1, c :: rest, hm, hf => by
      have hc : ¬ (c = sqC) := fun h => hm (h ▸ List.mem_cons_self c rest)
      have hrest : sqC ∉ rest := fun h => hm (List.mem_cons_of_mem c h)
      simp only [subSQKeyF]
      rw [if_neg hc, subSQKeyF_id f rest hrest (by simp at hf; omega)]

/-- The single-quote value rewrite is the identity on quote-free input. -/
theorem subSQValF_id :
    ∀ (f : Nat) (l : List Char), sqC ∉ l → l.length < f → subSQValF f l = l
  | 0, _, _, hf => absurd hf (by omega)
  | _ + 1, [], _, _ => rfl
  | f + 1, c :: rest, hm, hf => by
      have hrest : sqC ∉ rest := fun h => hm (List.mem_cons_of_mem c h)
      have hrec : subSQValF f rest = rest :=
        subSQValF_id f rest hrest (by simp at hf; omega)
      by_cases hc : c = ':'
      · have hw : ¬ ((rest.dropWhile isWsC).head? = some sqC) := by
          intro hh
          apply hrest
          cases hdw : rest.dropWhile isWsC with
          | nil => rw [hdw] at hh; exact Option.noConfusion hh
          | cons x xs =>
              rw [hdw, List.head?_cons, Option.some.injEq] at hh
              have hxmem : x ∈ rest :=
                mem_of_mem_dropWhile rest x (hdw ▸ List.mem_cons_self x xs)
              rwa [hh] at hxmem
        simp only [subSQValF]
        rw [if_pos hc, if_neg hw, hrec]
      · simp only [subSQValF]
        rw [if_neg hc, hrec]

/-- The markdown-fence-opener removal is the identity on backtick-free
input. -/
theorem subMdOpenF_id :
    ∀ (f : Nat) (l : List Char), btC ∉ l → l.length < f → subMdOpenF f l = l
  | 0, _, _, hf => absurd hf (by omega)
  | _ + 1, [], _, _ => rfl
  | f + 1, c :: rest, hm, hf => by
      have hc : ¬ (c = btC ∧ rest.take 6 = [btC, btC, 'j', 's', 'o', 'n']) := by
        rintro ⟨h1, _⟩
        exact hm (h1 ▸ List.mem_cons_self c rest)
      have hrest : btC ∉ rest := fun h => hm (List.mem_cons_of_mem c h)
      simp only [subMdOpenF]
      rw [if_neg hc, subMdOpenF_id f rest hrest (by simp at hf; omega)]

/-- The trailing-fence removal is the identity on backtick-free input. -/
theorem subMdCloseF_id :
    ∀ (f : Nat) (l : List Char), btC ∉ l → l.length < f → subMdCloseF f l = l
  | 0, _, _, hf => absurd hf (by omega)
  | _ + 1, [], _, _ => rfl
  | f + 1, c :: rest, hm, hf => by
      have hc : ¬ (c = btC ∧ rest.take 2 = [btC, btC] ∧ (rest.drop 2).all isWsC) := by
        rintro ⟨h1, _⟩
        exact hm (h1 ▸ List.mem_cons_self c rest)
      have hrest : btC ∉ rest := fun h => hm (List.mem_cons_of_mem c h)
      simp only [subMdCloseF]
      rw [if_neg hc, subMdCloseF_id f rest hrest (by simp at hf; omega)]

/-- Python `strip()` is the identity when the ends are non-whitespace. -/
theorem pyStrip_id (l : List Char) (hh : l.head? = some obC)
    (hl : l.getLast? = some cbC) : pyStrip l = l := by
  unfold pyStrip
  rw [dropWhile_id_of_head hh (by decide)]
  rw [dropWhile_id_of_head (show l.reverse.head? = some cbC by
    rw [List.head?_reverse]; exact hl) (by decide)]
  exact List.reverse_reverse l

/-- The brace-window slice is the identity when the list starts with an
opening brace and ends with a closing one. -/
theorem braceSpan_id (l : List Char) (hh : l.head? = some obC)
    (hl : l.getLast? = some cbC) : braceSpan l = l := by
  cases l with
  | nil => exact Option.noConfusion hh
  | cons x xs =>
      rw [List.head?_cons, Option.some.injEq] at hh
      subst hh
      have hrev : (obC :: xs).reverse.head? = some cbC := by
        rw [List.head?_reverse]; exact hl
      rcases hr : (obC :: xs).reverse with _ | ⟨y, ys⟩
      · rw [hr] at hrev; exact Option.noConfusion hrev
      · rw [hr, List.head?_cons, Option.some.injEq] at hrev
        subst hrev
        have hmem : cbC ∈ obC :: xs := by
          rw [← List.mem_reverse, hr]
          exact List.mem_cons_self _ _
        have hcond : (obC :: xs).contains obC = true ∧ (obC :: xs).contains cbC = true := by
          constructor
          · simp
          · simpa using hmem
        have h1 : (obC :: xs).indexOf obC = 0 := by simp [List.indexOf_cons_self]
        have h2 : (obC :: xs).reverse.indexOf cbC = 0 := by
          rw [hr]
          simp [List.indexOf_cons_self]
        unfold braceSpan
        rw [if_pos hcond]
        simp only [h1, h2]
        rw [List.drop_zero]
        have harith : (obC :: xs).length - 1 - 0 + 1 - 0 = (obC :: xs).length := by
          rw [List.length_cons]
          omega
        rw [harith, List.take_length]

/-- C8 (amended): `_fix_json_string` is the identity — hence parsing the
result is exactly parsing the original — on strings that contain no backtick
and no single quote, start with `\x7b`, end with `\x7d`, and contain none of
the six rewritten adjacency patterns (`,\s*\x7d`, `,\s*]`, `\x7d\s*\x7b`,
`]\s*\x7b`, `\x7d\s*"`, `]\s*"`).  The original claim fails because those
patterns also match inside JSON string literals, where the rewrites corrupt
valid input (counterexample below). -/
theorem c8_amended_fix_noop (s : String)
    (hbt : btC ∉ s.data) (hsq : sqC ∉ s.data)
    (hh : s.data.head? = some obC) (hl : s.data.getLast? = some cbC)
    (h1 : trigPair ',' cbC s.data = false)
    (h2 : trigPair ',' cbkC s.data = false)
    (h3 : trigPair cbC obC s.data = false)
    (h4 : trigPair cbkC obC s.data = false)
    (h5 : trigPair cbC qC s.data = false)
    (h6 : trigPair cbkC qC s.data = false) :
    fix_json_string s = s
    ∧ Json.parse (fix_json_string s) = Json.parse s := by
  have hfix : fix_json_string s = s := by
    simp only [fix_json_string, subMdOpen, subMdClose, subSQKey, subSQVal, subPair]
    rw [subMdOpenF_id _ s.data hbt (by omega)]
    rw [subMdCloseF_id _ s.data hbt (by omega)]
    rw [pyStrip_id s.data hh hl]
    rw [braceSpan_id s.data hh hl]
    rw [subSQKeyF_id _ s.data hsq (by omega)]
    rw [subSQValF_id _ s.data hsq (by omega)]
    rw [subPairF_id ',' cbC _ _ s.data h1 (by omega)]
    rw [subPairF_id ',' cbkC _ _ s.data h2 (by omega)]
    rw [subPairF_id cbC obC _ _ s.data h3 (by omega)]
    rw [subPairF_id cbkC obC _ _ s.data h4 (by omega)]
    rw [subPairF_id cbC qC _ _ s.data h5 (by omega)]
    rw [subPairF_id cbkC qC _ _ s.data h6 (by omega)]
  exact ⟨hfix, by rw [hfix]⟩

/-- C8 counterexample: the valid JSON document `\x7b"a": "\x7d\x7b"\x7d`
parses, but repairing it inserts `, ` inside the string literal, so parsing
the repaired text yields a different value. -/
theorem c8_counterexample :
    Json.parse (String.mk [obC, qC, 'a', qC, ':', spC, qC, cbC, obC, qC, cbC])
      = some (Json.obj [("a", Json.str (String.mk [cbC, obC]))])
    ∧ Json.parse (fix_json_string
        (String.mk [obC, qC, 'a', qC, ':', spC, qC, cbC, obC, qC, cbC]))
      = some (Json.obj [("a", Json.str (String.mk [cbC, ',', spC, obC]))])
    ∧ Json.obj [("a", Json.str (String.mk [cbC, obC]))]
        ≠ Json.obj [("a", Json.str (String.mk [cbC, ',', spC, obC]))] :=
  ⟨rfl, rfl, by decide⟩

/-- C8 witness: the serialized object `\x7b"a": 1\x7d` satisfies all the
no-trigger hypotheses and survives repair untouched. -/
theorem c8_amended_fix_noop_witness :
    btC ∉ "\x7b\"a\": 1\x7d".data ∧ sqC ∉ "\x7b\"a\": 1\x7d".data
    ∧ "\x7b\"a\": 1\x7d".data.head? = some obC
    ∧ "\x7b\"a\": 1\x7d".data.getLast? = some cbC
    ∧ fix_json_string "\x7b\"a\": 1\x7d" = "\x7b\"a\": 1\x7d" :=
  ⟨by decide, by decide, rfl, rfl,
    (c8_amended_fix_noop "\x7b\"a\": 1\x7d" (by decide) (by decide) rfl rfl
      rfl rfl rfl rfl rfl rfl).1⟩
